import Mathlib

/-!
Shallow embedding of the pairing/merge/validation pipeline of the
tv_movie_processor repository (src/src/routes/processor.py and
src/src/tv_movie_processor.py).

Modelling conventions:
- Paths and filenames are Lean `String`s; all character-level work is done
  on `List Char`.
- The filesystem is a total map `FS := String → Option Nat` giving the size
  of an existing file (`none` = the path does not exist).
- External subprocesses (ffmpeg, ffprobe) and the directory walk
  (`os.walk`) are oracle parameters: `probe` returns the list of
  codec-type lines printed by ffprobe (`none` = subprocess error), a
  converter oracle returns an exit status together with the filesystem it
  leaves behind, and `walk` returns the `(root, filename)` pairs the
  recursive walk yields for a given search path.
- Python character classes are modelled at the ASCII level (`\w`,
  `str.lower`, `\s`); float similarity scores are modelled as exact
  rationals.
-/

set_option maxRecDepth 8192

namespace TVMP

/-- ASCII model of `str.lower`. -/
def pyLower (s : String) : String :=
  ⟨s.data.map Char.toLower⟩

/-- Boolean prefix test on character lists. -/
def prefCL : List Char → List Char → Bool
  | [], _ => true
  | _ :: _, [] => false
  | a :: as, b :: bs => a = b && prefCL as bs

/-- Boolean substring test (Python `needle in hay`) on character lists. -/
def subCL (needle : List Char) : List Char → Bool
  | [] => prefCL needle []
  | c :: cs => prefCL needle (c :: cs) || subCL needle cs

/-- Python `needle in hay` on strings. -/
def pyIn (needle hay : String) : Bool :=
  subCL needle.data hay.data

/-- Case-insensitive substring test, the meaning of an IGNORECASE
`re.search` for a literal pattern. -/
def ciIn (needle hay : String) : Bool :=
  pyIn (pyLower needle) (pyLower hay)

/-- Characters after the last slash of a POSIX path (`os.path.basename`). -/
def pyBasename (s : String) : String :=
  ⟨(s.data.reverse.takeWhile (fun c => c ≠ '/')).reverse⟩

/-- POSIX `os.path.splitext`: split off the extension at the last dot of
the final path component, unless that component consists only of leading
dots up to that point. -/
def pySplitext (s : String) : String × String :=
  let r := s.data.reverse
  let afterdot := r.takeWhile (fun c => c ≠ '.' && c ≠ '/')
  let rest := r.drop afterdot.length
  match rest with
  | '.' :: before =>
      if (before.takeWhile (fun c => c ≠ '/')).any (fun c => c ≠ '.') then
        (⟨before.reverse⟩, ⟨('.' :: afterdot.reverse)⟩)
      else
        (s, "")
  | _ => (s, "")

/-- Python `str.endswith` (single suffix). -/
def pyEndsWith (s suffixStr : String) : Bool :=
  prefCL suffixStr.data.reverse s.data.reverse

/-- The filesystem: maps a path to the size of the file stored there. -/
def FS : Type := String → Option Nat

/-- `os.path.exists`. -/
def FS.existsP (fs : FS) (p : String) : Bool :=
  (fs p).isSome

/-- `os.remove`. -/
def FS.remove (fs : FS) (p : String) : FS :=
  fun q => if q = p then none else fs q

/-!
`validate_and_cleanup(output_file, es_file, vo_file=None)` from
src/src/routes/processor.py lines 564-607 (identical in
src/src/tv_movie_processor.py lines 339-382).

The ffprobe invocation is the oracle `probe : String → Option (List String)`
returning the stripped stdout lines (`none` models a raised
`subprocess.SubprocessError`).  The Python truthiness test `if vo_file`
is `false` for `None` and for the empty string.
-/

/-- Embedding of `validate_and_cleanup`: returns the boolean result and the
filesystem after any deletions.  The Python early returns are rendered as
positive if-then-else tests. -/
def validate_and_cleanup (fs : FS) (probe : String → Option (List String))
    (output_file es_file : String) (vo_file : Option String) : Bool × FS :=
  if fs.existsP output_file then
    match probe output_file with
    | none => (false, fs)
    | some lines =>
        let audioStreams := lines.count "audio"
        if audioStreams < 2 then (false, fs)
        else
          let fs1 := if fs.existsP es_file then fs.remove es_file else fs
          let fs2 :=
            match vo_file with
            | none => fs1
            | some v =>
                if v ≠ "" ∧ v ≠ output_file ∧ fs1.existsP v then
                  fs1.remove v
                else fs1
          (true, fs2)
  else (false, fs)

theorem existsP_false_eq_none {fs : FS} {p : String}
    (h : ¬ fs.existsP p = true) : fs p = none := by
  simp only [FS.existsP, Option.isSome] at h
  cases hfp : fs p with
  | none => rfl
  | some n => rw [hfp] at h; simp at h

/-- The conditional deletion `if exists then remove else id` acts pointwise
as deletion of exactly that path. -/
theorem removeIfExists_apply (fs : FS) (e p : String) :
    (if fs.existsP e then fs.remove e else fs) p =
      if p = e then none else fs p := by
  by_cases he : fs.existsP e
  · simp [he, FS.remove]
  · rw [if_neg he]
    by_cases hpe : p = e
    · subst hpe
      rw [if_pos rfl]
      exact existsP_false_eq_none he
    · rw [if_neg hpe]

/-- C1: on every failure branch (missing output, probe error, fewer than 2
audio streams) `validate_and_cleanup` returns failure and performs no
deletion at all: the filesystem is returned unchanged, so in particular
`es_path` and `vo_path` are untouched.  Failure occurs exactly on those
three branches. -/
theorem c1_no_deletion_on_failure (fs : FS)
    (probe : String → Option (List String)) (output_file es_file : String)
    (vo_file : Option String)
    (hfail : (validate_and_cleanup fs probe output_file es_file vo_file).1 = false) :
    (validate_and_cleanup fs probe output_file es_file vo_file).2 = fs ∧
      (fs output_file = none ∨ probe output_file = none ∨
        ∃ lines, probe output_file = some lines ∧ lines.count "audio" < 2) := by
  by_cases ho : fs.existsP output_file
  · rcases hp : probe output_file with _ | lines
    · refine ⟨?_, Or.inr (Or.inl rfl)⟩
      simp [validate_and_cleanup, ho, hp]
    · by_cases ha : lines.count "audio" < 2
      · refine ⟨?_, Or.inr (Or.inr ⟨lines, rfl, ha⟩)⟩
        simp [validate_and_cleanup, ho, hp, ha]
      · exfalso
        simp [validate_and_cleanup, ho, hp, ha] at hfail
  · refine ⟨?_, Or.inl (existsP_false_eq_none ho)⟩
    simp [validate_and_cleanup, ho]

/-- Witness for C1 at a concrete failing input (probe reports one audio
stream, so nothing is deleted). -/
theorem c1_no_deletion_on_failure_witness :
    (validate_and_cleanup (fun p => if p = "/m/out.mkv" ∨ p = "/m/a.es.mkv" then some 5 else none)
        (fun _ => some ["video", "audio"]) "/m/out.mkv" "/m/a.es.mkv" (some "/m/a.vo.mkv")).2
      = (fun p => if p = "/m/out.mkv" ∨ p = "/m/a.es.mkv" then some 5 else none) :=
  (c1_no_deletion_on_failure _ _ _ _ _ (by decide)).1

/-- C5: on success, the final filesystem deletes exactly `es_path`
(whether or not it existed, deletion of a missing file is a no-op) and the
supplied `vo_path` when it is distinct from `output_path`; every other
path keeps its previous contents.  The hypothesis that a supplied
`vo_path` is nonempty reflects that real paths are nonempty strings
(Python truthiness makes an empty `vo_file` behave like `None`). -/
theorem c5_success_deletions (fs : FS)
    (probe : String → Option (List String)) (output_file es_file : String)
    (vo_file : Option String)
    (hvo : ∀ v, vo_file = some v → v ≠ "")
    (hok : (validate_and_cleanup fs probe output_file es_file vo_file).1 = true) :
    ∀ p, (validate_and_cleanup fs probe output_file es_file vo_file).2 p =
      if p = es_file ∨ (vo_file = some p ∧ p ≠ output_file) then none else fs p := by
  by_cases ho : fs.existsP output_file
  · rcases hp : probe output_file with _ | lines
    · exfalso; simp [validate_and_cleanup, ho, hp] at hok
    · by_cases ha : lines.count "audio" < 2
      · exfalso; simp [validate_and_cleanup, ho, hp, ha] at hok
      · intro p
        rcases vo_file with _ | v
        · have hres : (validate_and_cleanup fs probe output_file es_file none).2 p =
              (if fs.existsP es_file then fs.remove es_file else fs) p := by
            simp [validate_and_cleanup, ho, hp, ha]
          rw [hres, removeIfExists_apply]
          simp
        · have hvne : v ≠ "" := hvo v rfl
          by_cases hcond : v ≠ "" ∧ v ≠ output_file ∧
              (if fs.existsP es_file then fs.remove es_file else fs).existsP v
          · have hres : (validate_and_cleanup fs probe output_file es_file (some v)).2 p =
                ((if fs.existsP es_file then fs.remove es_file else fs).remove v) p := by
              simp only [validate_and_cleanup, hp]
              rw [if_pos ho]
              rw [if_neg ha, if_pos hcond]
            rw [hres]
            obtain ⟨hv1, hv2, hv3⟩ := hcond
            by_cases hpv : p = v
            · subst hpv
              rw [if_pos (Or.inr ⟨rfl, hv2⟩)]
              simp [FS.remove]
            · have : FS.remove (if fs.existsP es_file then fs.remove es_file else fs) v p =
                  (if fs.existsP es_file then fs.remove es_file else fs) p := by
                simp [FS.remove, hpv]
              rw [this, removeIfExists_apply]
              by_cases hpe : p = es_file
              · rw [if_pos hpe, if_pos (Or.inl hpe)]
              · rw [if_neg hpe, if_neg]
                rintro (h | ⟨hsome, -⟩)
                · exact hpe h
                · exact hpv (Option.some.inj hsome).symm
          · have hres : (validate_and_cleanup fs probe output_file es_file (some v)).2 p =
                (if fs.existsP es_file then fs.remove es_file else fs) p := by
              simp only [validate_and_cleanup, hp]
              rw [if_pos ho]
              rw [if_neg ha, if_neg hcond]
            rw [hres, removeIfExists_apply]
            by_cases hpe : p = es_file
            · rw [if_pos hpe, if_pos (Or.inl hpe)]
            · rw [if_neg hpe]
              by_cases hpv : p = v
              · subst hpv
                by_cases hpo : p = output_file
                · rw [if_neg]
                  rintro (h | ⟨-, hbad⟩)
                  · exact hpe h
                  · exact hbad hpo
                · have hv3 : ¬ (if fs.existsP es_file then fs.remove es_file else fs).existsP p := by
                    intro hex
                    exact hcond ⟨hvne, fun h => hpo h, hex⟩
                  have hnone : (if fs.existsP es_file then fs.remove es_file else fs) p = none :=
                    existsP_false_eq_none hv3
                  rw [removeIfExists_apply, if_neg hpe] at hnone
                  rw [if_pos (Or.inr ⟨rfl, hpo⟩)]
                  exact hnone
              · rw [if_neg]
                rintro (h | ⟨hsome, -⟩)
                · exact hpe h
                · exact hpv (Option.some.inj hsome).symm
  · exfalso; simp [validate_and_cleanup, ho] at hok

/-- Witness for C5 at a concrete successful input: the ES source is
deleted, the distinct VO source is deleted, and an unrelated file
survives. -/
theorem c5_success_deletions_witness :
    ((validate_and_cleanup
        (fun p => if p = "/m/out.mkv" ∨ p = "/m/a.es.mkv" ∨ p = "/m/a.vo.avi" ∨ p = "/m/other.mkv" then some 5 else none)
        (fun _ => some ["video", "audio", "audio"]) "/m/out.mkv" "/m/a.es.mkv" (some "/m/a.vo.avi")).2 "/m/a.es.mkv" = none) ∧
    ((validate_and_cleanup
        (fun p => if p = "/m/out.mkv" ∨ p = "/m/a.es.mkv" ∨ p = "/m/a.vo.avi" ∨ p = "/m/other.mkv" then some 5 else none)
        (fun _ => some ["video", "audio", "audio"]) "/m/out.mkv" "/m/a.es.mkv" (some "/m/a.vo.avi")).2 "/m/a.vo.avi" = none) ∧
    ((validate_and_cleanup
        (fun p => if p = "/m/out.mkv" ∨ p = "/m/a.es.mkv" ∨ p = "/m/a.vo.avi" ∨ p = "/m/other.mkv" then some 5 else none)
        (fun _ => some ["video", "audio", "audio"]) "/m/out.mkv" "/m/a.es.mkv" (some "/m/a.vo.avi")).2 "/m/other.mkv" = some 5) := by
  refine ⟨?_, ?_, ?_⟩
  · rw [c5_success_deletions _ _ _ _ _ (by intro v hv; cases hv; decide) (by decide)]
    decide
  · rw [c5_success_deletions _ _ _ _ _ (by intro v hv; cases hv; decide) (by decide)]
    decide
  · rw [c5_success_deletions _ _ _ _ _ (by intro v hv; cases hv; decide) (by decide)]
    decide

/-!
`ensure_mkv_format(file_path)` from src/src/routes/processor.py lines
446-488.  The ffmpeg remux subprocess is the oracle
`conv : FS → String → String → Bool × FS`: given the current filesystem and
the input and output paths of the command
`ffmpeg -i file_path -c copy output_path`, it returns whether the
subprocess completed without raising and the filesystem it leaves behind
(a failed run may leave a partial output file).
-/

/-- Python `os.path.getsize(p) > 0` guarded by existence. -/
def FS.existsNonempty (fs : FS) (p : String) : Bool :=
  match fs p with
  | some n => decide (0 < n)
  | none => false

/-- Embedding of `ensure_mkv_format`. -/
def ensure_mkv_format (fs : FS) (conv : FS → String → String → Bool × FS)
    (file_path : String) : Option String × FS :=
  if fs.existsP file_path then
    if pyEndsWith (pyLower file_path) ".mkv" then (some file_path, fs)
    else
      let output_path := (pySplitext file_path).1 ++ ".mkv"
      match conv fs file_path output_path with
      | (ok, fs2) =>
          if ok then
            if fs2.existsNonempty output_path then (some output_path, fs2)
            else (none, fs2)
          else (none, fs2)
  else (none, fs)

/-- C6: `ensure_mkv_format` returns an existing `.mkv` path (case
insensitive) unchanged with the filesystem untouched (no conversion); for
any other existing path the only possible successful result is the sibling
path with the extension replaced by `.mkv`; and it fails exactly when the
source does not exist, or the external tool raises, or the produced
output file is missing or zero-length. -/
theorem c6_ensure_mkv_format (fs : FS) (conv : FS → String → String → Bool × FS)
    (file_path : String) :
    (fs file_path ≠ none → pyEndsWith (pyLower file_path) ".mkv" = true →
      ensure_mkv_format fs conv file_path = (some file_path, fs)) ∧
    (fs file_path ≠ none → pyEndsWith (pyLower file_path) ".mkv" = false →
      ((ensure_mkv_format fs conv file_path).1 =
          some ((pySplitext file_path).1 ++ ".mkv") ∧
        (ensure_mkv_format fs conv file_path).2 =
          (conv fs file_path ((pySplitext file_path).1 ++ ".mkv")).2) ∨
      (ensure_mkv_format fs conv file_path).1 = none) ∧
    ((ensure_mkv_format fs conv file_path).1 = none ↔
      fs file_path = none ∨
        (pyEndsWith (pyLower file_path) ".mkv" = false ∧
          ((conv fs file_path ((pySplitext file_path).1 ++ ".mkv")).1 = false ∨
            (conv fs file_path ((pySplitext file_path).1 ++ ".mkv")).2.existsNonempty
              ((pySplitext file_path).1 ++ ".mkv") = false))) := by
  by_cases he : fs.existsP file_path
  · have hne : fs file_path ≠ none := by
      intro h
      rw [FS.existsP, h] at he
      simp at he
    by_cases hmkv : pyEndsWith (pyLower file_path) ".mkv"
    · refine ⟨fun _ _ => ?_, fun _ hmf => absurd hmkv (by simp [hmf]), ?_⟩
      · simp [ensure_mkv_format, he, hmkv]
      · simp [ensure_mkv_format, he, hmkv, hne]
    · have hmf : pyEndsWith (pyLower file_path) ".mkv" = false := by
        simpa using hmkv
      rcases hc : conv fs file_path ((pySplitext file_path).1 ++ ".mkv") with ⟨ok, fs2⟩
      have hunf : ensure_mkv_format fs conv file_path =
          (if ok then
            if fs2.existsNonempty ((pySplitext file_path).1 ++ ".mkv") then
              (some ((pySplitext file_path).1 ++ ".mkv"), fs2)
            else (none, fs2)
          else (none, fs2)) := by
        rw [ensure_mkv_format, if_pos he, if_neg hmkv]
        dsimp only
        rw [hc]
      refine ⟨fun _ h => absurd h (by simp [hmf]), fun _ _ => ?_, ?_⟩
      · cases ok with
        | false => right; rw [hunf]; simp
        | true =>
            by_cases hout : fs2.existsNonempty ((pySplitext file_path).1 ++ ".mkv")
            · left; rw [hunf]; simp [hout]
            · right; rw [hunf]; simp [hout]
      · rw [hunf]
        cases ok with
        | false => simp [hmf, hne]
        | true =>
            by_cases hout : fs2.existsNonempty ((pySplitext file_path).1 ++ ".mkv")
            · simp [hout, hmf, hne]
            · simp [hout, hmf, hne]
  · have hnone : fs file_path = none := existsP_false_eq_none he
    refine ⟨fun h _ => absurd hnone h, fun h _ => absurd hnone h, ?_⟩
    simp [ensure_mkv_format, he, hnone]

/-- Witness for C6: an existing `.MKV` file is returned unchanged, and an
existing `.avi` file is remuxed to the sibling `.mkv` path by a
well-behaved converter oracle. -/
theorem c6_ensure_mkv_format_witness :
    (ensure_mkv_format (fun p => if p = "/m/b.MKV" then some 4 else none)
        (fun fs _ o => (true, fun p => if p = o then some 7 else fs p)) "/m/b.MKV"
      = (some "/m/b.MKV", fun p => if p = "/m/b.MKV" then some 4 else none)) ∧
    ((ensure_mkv_format (fun p => if p = "/m/a.avi" then some 5 else none)
        (fun fs _ o => (true, fun p => if p = o then some 7 else fs p)) "/m/a.avi").1
      = some "/m/a.mkv") := by
  constructor
  · exact (c6_ensure_mkv_format _ _ _).1 (by decide) (by decide)
  · have h := ((c6_ensure_mkv_format (fun p => if p = "/m/a.avi" then some 5 else none)
        (fun fs _ o => (true, fun p => if p = o then some 7 else fs p)) "/m/a.avi").2.1
      (by decide) (by decide))
    rcases h with ⟨h1, -⟩ | h1
    · rw [h1]; decide
    · exfalso
      have h3 := (c6_ensure_mkv_format (fun p => if p = "/m/a.avi" then some 5 else none)
        (fun fs _ o => (true, fun p => if p = o then some 7 else fs p)) "/m/a.avi").2.2
      rw [h3] at h1
      revert h1
      decide

/-!
`normalize_filename(filename)` from src/src/routes/processor.py lines
128-154.  The four regex substitutions are embedded as character-list
transducers: `[ _-]+ -> .` (runs of separators become one dot), removal of
`[^\w.]` (ASCII model of `\w`), collapsing of dot runs, and a final
`strip('.')`.
-/

/-- Characters replaced by the `[ _-]+` substitution. -/
def isSepChar (c : Char) : Bool := c = ' ' || c = '_' || c = '-'

/-- Transducer for `re.sub(r'[ _-]+', '.', s)`; the flag records whether
the previous character belonged to a separator run. -/
def d2dGo : Bool → List Char → List Char
  | _, [] => []
  | prevSep, c :: cs =>
      if isSepChar c then
        if prevSep then d2dGo true cs else '.' :: d2dGo true cs
      else c :: d2dGo false cs

/-- ASCII model of the character class `[\w.]` kept by
`re.sub(r'[^\w.]', '', s)`. -/
def isWordDot (c : Char) : Bool := c.isAlphanum || c = '_' || c = '.'

/-- Transducer for `re.sub(r'\.+', '.', s)`; the flag records whether the
previous character was a dot. -/
def cdGo : Bool → List Char → List Char
  | _, [] => []
  | prevDot, c :: cs =>
      if c = '.' then
        if prevDot then cdGo true cs else '.' :: cdGo true cs
      else c :: cdGo false cs

/-- Python `s.strip('.')`. -/
def stripDots (cs : List Char) : List Char :=
  ((cs.dropWhile fun c => c = '.').reverse.dropWhile fun c => c = '.').reverse

/-- The four substitutions applied to the base-name characters. -/
def normChars (cs : List Char) : List Char :=
  stripDots (cdGo false ((d2dGo false cs).filter isWordDot))

/-- Embedding of `normalize_filename`. -/
def normalize_filename (filename : String) : String :=
  String.mk (normChars (pySplitext (pyBasename filename)).1.data) ++
    pyLower (pySplitext filename).2

/-! Structural lemmas used to settle C10. -/

/-- Adjacent characters never form a double dot. -/
def noDD : List Char → Prop
  | [] => True
  | [_] => True
  | a :: b :: t => ¬(a = '.' ∧ b = '.') ∧ noDD (b :: t)

/-- The head, if any, is not a dot. -/
def headND : List Char → Prop
  | [] => True
  | c :: _ => c ≠ '.'

theorem noDD_cons {a : Char} {cs : List Char} (h : noDD (a :: cs)) : noDD cs := by
  cases cs with
  | nil => trivial
  | cons b t => exact h.2

theorem d2dGo_not_sep {c : Char} :
    ∀ (b : Bool) (cs : List Char), c ∈ d2dGo b cs → ¬ isSepChar c := by
  intro b cs
  induction cs generalizing b with
  | nil => intro h; simp [d2dGo] at h
  | cons a t ih =>
      intro h
      by_cases ha : isSepChar a
      · rw [d2dGo, if_pos ha] at h
        cases b with
        | true => exact ih true h
        | false =>
            rcases List.mem_cons.mp h with rfl | h
            · intro hc; simp [isSepChar] at hc
            · exact ih true h
      · rw [d2dGo, if_neg ha] at h
        rcases List.mem_cons.mp h with rfl | h
        · exact ha
        · exact ih false h

theorem d2dGo_fixed : ∀ (cs : List Char), (∀ c ∈ cs, ¬ isSepChar c) →
    d2dGo false cs = cs := by
  intro cs h
  induction cs with
  | nil => rfl
  | cons a t ih =>
      have ha : ¬ isSepChar a := h a (List.mem_cons_self a t)
      rw [d2dGo, if_neg ha, ih (fun c hc => h c (List.mem_cons_of_mem a hc))]

theorem cdGo_mem {c : Char} :
    ∀ (b : Bool) (cs : List Char), c ∈ cdGo b cs → c ∈ cs := by
  intro b cs
  induction cs generalizing b with
  | nil => intro h; simp [cdGo] at h
  | cons a t ih =>
      intro h
      by_cases ha : a = '.'
      · rw [cdGo, if_pos ha] at h
        cases b with
        | true => exact List.mem_cons_of_mem a (ih true h)
        | false =>
            rcases List.mem_cons.mp h with rfl | h
            · exact ha ▸ List.mem_cons_self a t
            · exact List.mem_cons_of_mem a (ih true h)
      · rw [cdGo, if_neg ha] at h
        rcases List.mem_cons.mp h with rfl | h
        · exact List.mem_cons_self c t
        · exact List.mem_cons_of_mem a (ih false h)

theorem cdGo_noDD : ∀ (cs : List Char),
    noDD (cdGo false cs) ∧ noDD (cdGo true cs) ∧ headND (cdGo true cs) := by
  intro cs
  induction cs with
  | nil => exact ⟨trivial, trivial, trivial⟩
  | cons a t ih =>
      obtain ⟨ihf, iht, ihh⟩ := ih
      by_cases ha : a = '.'
      · refine ⟨?_, ?_, ?_⟩
        · rw [cdGo, if_pos ha]
          cases hx : cdGo true t with
          | nil => trivial
          | cons d rest =>
              refine ⟨fun hdd => ?_, ?_⟩
              · rw [hx] at ihh; exact ihh hdd.2
              · rw [hx] at iht; exact iht
        · rw [cdGo, if_pos ha]; exact iht
        · rw [cdGo, if_pos ha]; exact ihh
      · have hcons : ∀ x, noDD x → noDD (a :: x) := by
          intro x hx
          cases x with
          | nil => trivial
          | cons d rest => exact ⟨fun hdd => ha hdd.1, hx⟩
        refine ⟨?_, ?_, ?_⟩
        · rw [cdGo, if_neg ha]; exact hcons _ ihf
        · rw [cdGo, if_neg ha]; exact hcons _ ihf
        · rw [cdGo, if_neg ha]; exact ha

theorem cdGo_fixed : ∀ (cs : List Char),
    (noDD cs → cdGo false cs = cs) ∧ (noDD cs → headND cs → cdGo true cs = cs) := by
  intro cs
  induction cs with
  | nil => exact ⟨fun _ => rfl, fun _ _ => rfl⟩
  | cons a t ih =>
      constructor
      · intro h
        by_cases ha : a = '.'
        · rw [cdGo, if_pos ha]
          have ht : headND t := by
            cases t with
            | nil => trivial
            | cons b r =>
                intro hb
                exact h.1 ⟨ha, hb⟩
          rw [ih.2 (noDD_cons h) ht]
          simp [ha]
        · rw [cdGo, if_neg ha, ih.1 (noDD_cons h)]
      · intro h hh
        have ha : a ≠ '.' := hh
        rw [cdGo, if_neg ha, ih.1 (noDD_cons h)]

theorem dropWhile_head_false {p : Char → Bool} :
    ∀ {cs : List Char} {d : Char} {t : List Char},
      cs.dropWhile p = d :: t → p d = false := by
  intro cs
  induction cs with
  | nil => intro d t h; simp at h
  | cons a r ih =>
      intro d t h
      rw [List.dropWhile_cons] at h
      by_cases ha : p a
      · rw [if_pos ha] at h
        exact ih h
      · rw [if_neg ha] at h
        cases h
        simpa using ha

theorem dropWhile_idem {p : Char → Bool} (cs : List Char) :
    (cs.dropWhile p).dropWhile p = cs.dropWhile p := by
  cases hd : cs.dropWhile p with
  | nil => rfl
  | cons d t =>
      rw [List.dropWhile_cons, if_neg]
      simp [dropWhile_head_false hd]

/-- The last element of `l.reverse.dropWhile p`, if that list is nonempty,
is the head of `l`. -/
theorem getLast_dropWhile_reverse {p : Char → Bool} {l : List Char}
    (h : (l.reverse.dropWhile p) ≠ []) :
    (l.reverse.dropWhile p).getLast? = l.head? := by
  have hsplit : l.reverse.takeWhile p ++ l.reverse.dropWhile p = l.reverse :=
    List.takeWhile_append_dropWhile p l.reverse
  have hg := congrArg List.getLast? hsplit
  rw [List.getLast?_append] at hg
  obtain ⟨x, hx⟩ := Option.isSome_iff_exists.mp (List.getLast?_isSome.mpr h)
  rw [hx] at hg
  simp only [Option.or] at hg
  rw [hx, hg]
  exact List.getLast?_reverse l

theorem stripDots_idem (cs : List Char) : stripDots (stripDots cs) = stripDots cs := by
  unfold stripDots
  by_cases hB : ((cs.dropWhile fun c => c = '.').reverse.dropWhile fun c => c = '.') = []
  · rw [hB]
    simp
  · set A := cs.dropWhile fun c => c = '.' with hA
    set B := A.reverse.dropWhile fun c => c = '.' with hBdef
    -- the head of B.reverse is the last of B, which is the head of A,
    -- which is not a dot
    have hlast : B.getLast? = A.head? := getLast_dropWhile_reverse hB
    have hrevhead : ∀ d t, B.reverse = d :: t → ¬ (d = '.') := by
      intro d t hBr
      have h1 : B.reverse.head? = some d := by rw [hBr]; rfl
      rw [List.head?_reverse, hlast] at h1
      cases hAc : A with
      | nil => rw [hAc] at h1; simp at h1
      | cons a r =>
          have had : a = d := by rw [hAc] at h1; simpa using h1
          have := dropWhile_head_false (p := fun c => c = '.') (hA ▸ hAc)
          subst had
          simpa using this
    have houter : B.reverse.dropWhile (fun c => c = '.') = B.reverse := by
      cases hBr : B.reverse with
      | nil => rfl
      | cons d t =>
          rw [List.dropWhile_cons, if_neg]
          simp [hrevhead d t hBr]
    have hfix : List.dropWhile (fun c => c = '.') B = B := by
      rw [hBdef]
      exact dropWhile_idem _
    rw [houter, List.reverse_reverse, hfix]

theorem mk_append (a b : List Char) : String.mk a ++ String.mk b = String.mk (a ++ b) :=
  rfl

theorem toLower_eq_or (c : Char) :
    (¬(65 ≤ c.toNat ∧ c.toNat ≤ 90) ∧ Char.toLower c = c) ∨
      ((Char.toLower c).toNat = c.toNat + 32 ∧ 65 ≤ c.toNat ∧ c.toNat ≤ 90) := by
  unfold Char.toLower
  by_cases h : c.toNat ≥ 65 ∧ c.toNat ≤ 90
  · right
    refine ⟨?_, h.1, h.2⟩
    rw [if_pos h]
    have hv : (c.toNat + 32).isValidChar := Or.inl (by omega)
    rw [Char.ofNat, dif_pos hv]
    rfl
  · left
    rw [if_neg h]
    exact ⟨h, rfl⟩

theorem toLower_ne_dot {c : Char} (h : ¬ (c = '.')) : ¬ (Char.toLower c = '.') := by
  rcases toLower_eq_or c with ⟨-, he⟩ | ⟨ht, h1, h2⟩
  · rw [he]; exact h
  · intro heq
    have := congrArg Char.toNat heq
    rw [ht] at this
    have hdot : ('.').toNat = 46 := by decide
    omega

theorem toLower_ne_slash {c : Char} (h : ¬ (c = '/')) : ¬ (Char.toLower c = '/') := by
  rcases toLower_eq_or c with ⟨-, he⟩ | ⟨ht, h1, h2⟩
  · rw [he]; exact h
  · intro heq
    have := congrArg Char.toNat heq
    rw [ht] at this
    have hsl : ('/').toNat = 47 := by decide
    omega

theorem toLower_idem (c : Char) : Char.toLower (Char.toLower c) = Char.toLower c := by
  rcases toLower_eq_or c with ⟨-, he⟩ | ⟨ht, h1, h2⟩
  · rw [he, he]
  · rcases toLower_eq_or (Char.toLower c) with ⟨-, he2⟩ | ⟨-, hb1, hb2⟩
    · exact he2
    · rw [ht] at hb2
      omega

theorem map_toLower_idem (t : List Char) :
    (t.map Char.toLower).map Char.toLower = t.map Char.toLower := by
  induction t with
  | nil => rfl
  | cons a r ih => simp only [List.map_cons, toLower_idem, ih]

theorem takeWhile_append_all {p : Char → Bool} {xs : List Char} (ys : List Char)
    (h : ∀ c ∈ xs, p c = true) : (xs ++ ys).takeWhile p = xs ++ ys.takeWhile p := by
  induction xs with
  | nil => simp
  | cons a r ih =>
      rw [List.cons_append, List.takeWhile_cons,
        if_pos (h a (List.mem_cons_self a r)),
        ih (fun c hc => h c (List.mem_cons_of_mem a hc)), List.cons_append]

theorem takeWhile_all {p : Char → Bool} {xs : List Char}
    (h : ∀ c ∈ xs, p c = true) : xs.takeWhile p = xs := by
  have := takeWhile_append_all ([] : List Char) h
  simpa using this

/-- Shape of a nonempty extension produced by `pySplitext`: a dot followed
by characters that are neither dots nor slashes. -/
theorem pySplitext_ext_shape (s : String) :
    (pySplitext s).2 = "" ∨
      ∃ t, (pySplitext s).2.data = '.' :: t ∧ ∀ c ∈ t, ¬(c = '.') ∧ ¬(c = '/') := by
  unfold pySplitext
  dsimp only
  split
  next x before heq =>
    split
    next hcond =>
      right
      refine ⟨(s.data.reverse.takeWhile fun c => c ≠ '.' && c ≠ '/').reverse, rfl, ?_⟩
      intro c hc
      have := List.mem_takeWhile_imp (List.mem_reverse.mp hc)
      constructor
      · intro hdot
        rw [hdot] at this
        simp at this
      · intro hsl
        rw [hsl] at this
        simp at this
    next => left; rfl
  next => left; rfl

/-- Computation rule for `pySplitext` on a string that decomposes as a
stem followed by a dot and a dot-free, slash-free tail. -/
theorem pySplitext_concat (N t : List Char)
    (hNex : ∃ c ∈ N, ¬(c = '.'))
    (hNslash : ∀ c ∈ N, ¬(c = '/'))
    (ht : ∀ c ∈ t, ¬(c = '.') ∧ ¬(c = '/')) :
    pySplitext ⟨N ++ '.' :: t⟩ = (⟨N⟩, ⟨'.' :: t⟩) := by
  have hrev : (N ++ '.' :: t).reverse = t.reverse ++ '.' :: N.reverse := by
    rw [List.reverse_append, List.reverse_cons, List.append_assoc]
    rfl
  have htw : (t.reverse ++ '.' :: N.reverse).takeWhile (fun c => c ≠ '.' && c ≠ '/')
      = t.reverse := by
    rw [takeWhile_append_all ('.' :: N.reverse)
        (fun c hc => by
          have := ht c (List.mem_reverse.mp hc)
          simp [this.1, this.2])]
    rw [List.takeWhile_cons, if_neg (by simp)]
    simp
  have hdrop : (t.reverse ++ '.' :: N.reverse).drop t.reverse.length = '.' :: N.reverse :=
    List.drop_left t.reverse ('.' :: N.reverse)
  unfold pySplitext
  simp only [hrev, htw, hdrop]
  have hcond : (N.reverse.takeWhile fun c => c ≠ '/').any (fun c => c ≠ '.') = true := by
    rw [takeWhile_all (fun c hc => by simp [hNslash c (List.mem_reverse.mp hc)])]
    obtain ⟨c, hc, hcd⟩ := hNex
    exact List.any_eq_true.mpr ⟨c, List.mem_reverse.mpr hc, by simp [hcd]⟩
  rw [if_pos hcond]
  simp

theorem stripDots_subset {c : Char} {cs : List Char} (h : c ∈ stripDots cs) : c ∈ cs := by
  unfold stripDots at h
  rw [List.mem_reverse] at h
  have h1 := (List.dropWhile_sublist _).subset h
  rw [List.mem_reverse] at h1
  exact (List.dropWhile_sublist _).subset h1

theorem stripDots_ex_nondot {cs : List Char} (h : stripDots cs ≠ []) :
    ∃ c ∈ stripDots cs, ¬ (c = '.') := by
  unfold stripDots at *
  cases hY : (cs.dropWhile fun c => c = '.').reverse.dropWhile (fun c => c = '.') with
  | nil => rw [hY] at h; simp at h
  | cons d t =>
      refine ⟨d, ?_, ?_⟩
      · simp only [hY, List.mem_reverse]
        exact List.mem_cons_self d t
      · have := dropWhile_head_false hY
        simpa using this

theorem noDD_suffix : ∀ (xs ys : List Char), noDD (xs ++ ys) → noDD ys := by
  intro xs
  induction xs with
  | nil => intro ys h; exact h
  | cons a t ih => intro ys h; exact ih ys (noDD_cons h)

theorem noDD_dropWhile {p : Char → Bool} {l : List Char} (h : noDD l) :
    noDD (l.dropWhile p) := by
  have := List.takeWhile_append_dropWhile p l
  exact noDD_suffix (l.takeWhile p) (l.dropWhile p) (this.symm ▸ h)

theorem noDD_snoc {a : Char} : ∀ (xs : List Char), noDD xs →
    (∀ b, xs.getLast? = some b → ¬(b = '.' ∧ a = '.')) → noDD (xs ++ [a]) := by
  intro xs
  induction xs with
  | nil => intro _ _; trivial
  | cons x t ih =>
      intro h hl
      cases t with
      | nil => exact ⟨hl x rfl, trivial⟩
      | cons y r =>
          refine ⟨h.1, ?_⟩
          exact ih h.2 (fun b hb => hl b (by rw [List.getLast?_cons_cons]; exact hb))

theorem noDD_reverse : ∀ (l : List Char), noDD l → noDD l.reverse := by
  intro l
  induction l with
  | nil => intro _; trivial
  | cons a t ih =>
      intro h
      rw [List.reverse_cons]
      refine noDD_snoc t.reverse (ih (noDD_cons h)) ?_
      intro b hb hpair
      rw [List.getLast?_reverse] at hb
      cases t with
      | nil => simp at hb
      | cons y r =>
          have : y = b := by simpa using hb
          subst this
          exact h.1 ⟨hpair.2, hpair.1⟩

theorem noDD_stripDots {cs : List Char} (h : noDD cs) : noDD (stripDots cs) :=
  noDD_reverse _ (noDD_dropWhile (noDD_reverse _ (noDD_dropWhile h)))

/-- The normalization pass is idempotent on character lists: its output
contains no separator characters, only word or dot characters, and no
double dots, and each of the four stages fixes such a list. -/
theorem normChars_idem (cs : List Char) : normChars (normChars cs) = normChars cs := by
  have hmem : ∀ c ∈ normChars cs, ¬ isSepChar c ∧ isWordDot c = true := by
    intro c hc
    have h1 : c ∈ cdGo false ((d2dGo false cs).filter isWordDot) := stripDots_subset hc
    have h2 : c ∈ (d2dGo false cs).filter isWordDot := cdGo_mem false _ h1
    have h3 := List.mem_filter.mp h2
    exact ⟨d2dGo_not_sep false cs h3.1, h3.2⟩
  have hdd : noDD (normChars cs) :=
    noDD_stripDots (cdGo_noDD ((d2dGo false cs).filter isWordDot)).1
  conv_lhs => rw [normChars]
  rw [d2dGo_fixed _ (fun c hc => (hmem c hc).1),
    List.filter_eq_self.mpr (fun c hc => (hmem c hc).2),
    (cdGo_fixed _).1 hdd]
  exact stripDots_idem _

theorem pyBasename_of_no_slash {s : String} (h : ∀ c ∈ s.data, ¬ (c = '/')) :
    pyBasename s = s := by
  unfold pyBasename
  rw [takeWhile_all (fun c hc => by simp [h c (List.mem_reverse.mp hc)])]
  rw [List.reverse_reverse]

set_option maxHeartbeats 1600000 in
/-- C10 counterexample: `normalize_filename` is not idempotent.  The
space in `A B` becomes a dot, and the second pass then treats `.B` as an
extension and lower-cases it. -/
theorem c10_normalize_not_idempotent :
    normalize_filename (normalize_filename "A B") ≠ normalize_filename "A B" := by
  decide

theorem normChars_ex_nondot {cs : List Char} (h : normChars cs ≠ []) :
    ∃ c ∈ normChars cs, ¬ (c = '.') := by
  unfold normChars at *
  exact stripDots_ex_nondot h

/-- C10 amended: `normalize_filename` is idempotent on every filename
whose normalized base name is nonempty and whose extension (in the sense
of `os.path.splitext`) is nonempty; the counterexample `A B` shows the
restriction on the extension is necessary (the output `A.B` re-splits at
the dot created from the space), and `!!!.MKV` (normalized base empty,
output `.mkv`) shows the restriction on the base is necessary. -/
theorem c10_normalize_idempotent_amended (f : String)
    (hbase : normChars (pySplitext (pyBasename f)).1.data ≠ [])
    (hext : (pySplitext f).2 ≠ "") :
    normalize_filename (normalize_filename f) = normalize_filename f := by
  rcases pySplitext_ext_shape f with h0 | ⟨t, hts, htp⟩
  · exact absurd h0 hext
  obtain ⟨N, hN⟩ : ∃ N, normChars (pySplitext (pyBasename f)).1.data = N := ⟨_, rfl⟩
  obtain ⟨t2, ht2⟩ : ∃ l, t.map Char.toLower = l := ⟨_, rfl⟩
  rw [hN] at hbase
  -- the first normalization output decomposes as N ++ '.' :: t2
  have hplower : pyLower (pySplitext f).2 = ⟨'.' :: t2⟩ := by
    rw [pyLower]
    congr 1
    rw [hts, List.map_cons, show Char.toLower '.' = '.' from by decide, ht2]
  have hg : normalize_filename f = ⟨N ++ '.' :: t2⟩ := by
    rw [normalize_filename, hN, hplower]
    exact mk_append _ _
  -- character-level facts about N and t2
  have hNmem : ∀ c ∈ N, ¬ isSepChar c ∧ isWordDot c = true := by
    intro c hc
    rw [← hN] at hc
    have h1 := stripDots_subset hc
    have h2 := cdGo_mem false _ h1
    have h3 := List.mem_filter.mp h2
    exact ⟨d2dGo_not_sep false _ h3.1, h3.2⟩
  have hNslash : ∀ c ∈ N, ¬ (c = '/') := by
    intro c hc heq
    exact absurd (heq ▸ (hNmem c hc).2) (by decide)
  have hNex : ∃ c ∈ N, ¬ (c = '.') := hN ▸ normChars_ex_nondot (hN ▸ hbase)
  have ht2p : ∀ c ∈ t2, ¬(c = '.') ∧ ¬(c = '/') := by
    intro c hc
    rw [← ht2] at hc
    obtain ⟨c0, hc0, rfl⟩ := List.mem_map.mp hc
    exact ⟨toLower_ne_dot (htp c0 hc0).1, toLower_ne_slash (htp c0 hc0).2⟩
  -- the second pass sees the same decomposition
  have hnoslash : ∀ c ∈ (String.mk (N ++ '.' :: t2)).data, ¬ (c = '/') := by
    intro c hc
    rcases List.mem_append.mp hc with h | h
    · exact hNslash c h
    · rcases List.mem_cons.mp h with rfl | h
      · simp
      · exact (ht2p c h).2
  have hbn : pyBasename ⟨N ++ '.' :: t2⟩ = ⟨N ++ '.' :: t2⟩ :=
    pyBasename_of_no_slash hnoslash
  have hsp : pySplitext ⟨N ++ '.' :: t2⟩ = (⟨N⟩, ⟨'.' :: t2⟩) :=
    pySplitext_concat N t2 hNex hNslash ht2p
  have hlow2 : pyLower ⟨'.' :: t2⟩ = ⟨'.' :: t2⟩ := by
    rw [pyLower]
    congr 1
    show Char.toLower '.' :: t2.map Char.toLower = '.' :: t2
    rw [show Char.toLower '.' = '.' from by decide, ← ht2, map_toLower_idem]
  have hNfix : normChars N = N := by
    rw [← hN]
    exact normChars_idem _
  rw [hg, normalize_filename, hbn, hsp]
  have hdataN : (String.mk N).data = N := rfl
  rw [hdataN, hNfix, hlow2]
  exact mk_append _ _

set_option maxHeartbeats 1600000 in
/-- Witness for the amended C10 at a concrete input with nonempty
normalized base and extension. -/
theorem c10_normalize_idempotent_amended_witness :
    normalize_filename (normalize_filename "My Movie.mkv") = normalize_filename "My Movie.mkv" :=
  c10_normalize_idempotent_amended "My Movie.mkv" (by decide) (by decide)

/-!
The output-naming step of `transfer_audio_track` from
src/src/routes/processor.py lines 526-532 (identical in
src/src/tv_movie_processor.py lines 300-306): starting from the VO base
name (extension already stripped), when the lower-cased base does not
contain the substring `.en.es.`, the substitution
`re.sub(r'\.(en|eng|english|es|esp|spanish)\.', '.', ...)` strips
dot-delimited language tags, trailing dots are removed, and `.en.es` is
appended.
-/

/-- The alternation `(en|eng|english|es|esp|spanish)`, in order. -/
def tagWords : List (List Char) :=
  [['e', 'n'], ['e', 'n', 'g'], ['e', 'n', 'g', 'l', 'i', 's', 'h'],
   ['e', 's'], ['e', 's', 'p'], ['s', 'p', 'a', 'n', 'i', 's', 'h']]

/-- Case-insensitive removal of a lowercase word from the front of a
character list. -/
def stripCI : List Char → List Char → Option (List Char)
  | [], cs => some cs
  | _ :: _, [] => none
  | w :: ws, c :: cs => if Char.toLower c = w then stripCI ws cs else none

/-- Try the tag alternation (ordered, regex semantics) against the
characters following a dot; on success return the characters after the
closing dot of the match. -/
def tryTags (cs : List Char) : Option (List Char) :=
  (tagWords.map fun w =>
    match stripCI w cs with
    | some ('.' :: r) => some r
    | _ => none).foldr (fun o acc => o.orElse fun _ => acc) none

/-- Fuelled scanner for `re.sub(r'\.(en|eng|english|es|esp|spanish)\.', '.', s)`:
at each position a match (leading dot, tag, closing dot) is replaced by a
single dot and scanning resumes after the closing dot.  The fuel is the
list length, which always suffices since each step consumes at least one
character. -/
def subTagsGo : Nat → List Char → List Char
  | 0, cs => cs
  | _ + 1, [] => []
  | fuel + 1, c :: cs =>
      if c = '.' then
        match tryTags cs with
        | some r => '.' :: subTagsGo fuel r
        | none => '.' :: subTagsGo fuel cs
      else c :: subTagsGo fuel cs

/-- The tag-stripping substitution. -/
def subTags (cs : List Char) : List Char := subTagsGo cs.length cs

/-- Python `s.rstrip('.')`. -/
def pyRstripDots (cs : List Char) : List Char :=
  (cs.reverse.dropWhile fun c => c = '.').reverse

/-- The naming step of `transfer_audio_track` applied to the VO base name
(extension already stripped): lines 526-532 of
src/src/routes/processor.py. -/
def nameOutputBase (output_base : String) : String :=
  if pyIn ".en.es." (pyLower output_base) then output_base
  else String.mk (pyRstripDots (subTags output_base.data)) ++ ".en.es"

set_option maxHeartbeats 1600000 in
/-- C3 failing input: for the VO base name `Show.en.es` (the base of a
merged output `Show.en.es.mkv` fed back in as VO), the combined-tag test
`'.en.es.' in base.lower()` fails because the tag is terminal once the
extension is stripped, so the naming step rewrites the base to
`Show.es.en.es` instead of leaving it unchanged, and a further merge
yields `Show.en.es.en.es`: language tags accumulate.  A base in which the
combined tag is followed by another dot is left unchanged. -/
theorem c3_naming_failing_input :
    nameOutputBase "Show.en.es" = "Show.es.en.es" ∧
    nameOutputBase "Show.en.es" ≠ "Show.en.es" ∧
    nameOutputBase (nameOutputBase "Show.en.es") = "Show.en.es.en.es" ∧
    nameOutputBase "Show.en.es.1080p" = "Show.en.es.1080p" := by
  refine ⟨by decide, by decide, by decide, by decide⟩

/-!
`extract_episode_info(filename)` from src/src/routes/processor.py lines
156-218.  The three regex searches are embedded as explicit scanners with
Python backtracking semantics: the lazy prefix `(.+?)` makes `re.search`
return the match with the leftmost start and, for that start, the
shortest prefix whose boundary begins a token; `\d+` is a maximal digit
run (the following literal is never a digit, so no backtracking arises);
`.` never matches a newline.  `\s` is modelled by the six ASCII
whitespace characters, `\d` by ASCII digits.
-/

def pyIsSpace (c : Char) : Bool :=
  c = ' ' || c = '\t' || c = '\n' || c = '\r' || c = '\x0b' || c = '\x0c'

def isDig (c : Char) : Bool := c.isDigit

/-- The separator `(?:\.|\s|-)`. -/
def sepOK (c : Char) : Bool := c = '.' || pyIsSpace c || c = '-'

/-- Python `int` on a digit string. -/
def natOfDigits (ds : List Char) : Nat :=
  ds.foldl (fun n c => n * 10 + (c.toNat - 48)) 0

/-- Token check for `\.S(\d+)E(\d+)(?:\.|\s|-)(.+)` (IGNORECASE) at a
boundary position: returns season, episode and the `(.+)` quality group. -/
def checkTok (cs : List Char) : Option (Nat × Nat × List Char) :=
  match cs with
  | '.' :: c1 :: rest =>
      if c1 = 'S' ∨ c1 = 's' then
        let ds := rest.takeWhile isDig
        if ds = [] then none
        else
          match rest.drop ds.length with
          | c2 :: rest2 =>
              if c2 = 'E' ∨ c2 = 'e' then
                let es := rest2.takeWhile isDig
                if es = [] then none
                else
                  match rest2.drop es.length with
                  | c3 :: rest3 =>
                      if sepOK c3 then
                        let q := rest3.takeWhile fun c => c ≠ '\n'
                        if q = [] then none
                        else some (natOfDigits ds, natOfDigits es, q)
                      else none
                  | [] => none
              else none
          | [] => none
      else none
  | _ => none

/-- Token check for `\.(\d+)x(\d+)(?:\.|\s|-)(.+)` (IGNORECASE) at a
boundary position. -/
def checkTokX (cs : List Char) : Option (Nat × Nat × List Char) :=
  match cs with
  | '.' :: rest =>
      let ds := rest.takeWhile isDig
      if ds = [] then none
      else
        match rest.drop ds.length with
        | c2 :: rest2 =>
            if c2 = 'x' ∨ c2 = 'X' then
              let es := rest2.takeWhile isDig
              if es = [] then none
              else
                match rest2.drop es.length with
                | c3 :: rest3 =>
                    if sepOK c3 then
                      let q := rest3.takeWhile fun c => c ≠ '\n'
                      if q = [] then none
                      else some (natOfDigits ds, natOfDigits es, q)
                    else none
                | [] => none
            else none
        | [] => none
  | _ => none

/-- Inner loop of `re.search` for a pattern `(.+?)<token>`: for a fixed
start position, extend the lazy group one character at a time (it cannot
cross a newline) and test the token at each boundary.  `acc` is the group
collected so far. -/
def scanInner (chk : List Char → Option (Nat × Nat × List Char)) :
    List Char → List Char → Option (List Char × Nat × Nat × List Char)
  | _, [] => none
  | acc, c :: rest =>
      if c = '\n' then none
      else
        match chk rest with
        | some (sn, en, q) => some (acc ++ [c], sn, en, q)
        | none => scanInner chk (acc ++ [c]) rest

/-- Outer loop of `re.search`: try each start position from the left. -/
def scanSearch (chk : List Char → Option (Nat × Nat × List Char)) :
    List Char → Option (List Char × Nat × Nat × List Char)
  | [] => none
  | c :: rest =>
      match scanInner chk [] (c :: rest) with
      | some r => some r
      | none => scanSearch chk rest

/-- Case-insensitive prefix check followed by `\s*(\d+)`: the tail of
`(?:Episode|Ep|E)\s*(\d+)` and of `Season\s*(\d+)`. -/
def wordNum (w : List Char) (cs : List Char) : Option (Nat × List Char) :=
  match stripCI w cs with
  | some rest =>
      let sp := rest.takeWhile pyIsSpace
      let ds := (rest.drop sp.length).takeWhile isDig
      if ds = [] then none
      else some (natOfDigits ds, (rest.drop sp.length).drop ds.length)
  | none => none

/-- The ordered alternation `(?:Episode|Ep|E)\s*(\d+)` at one position. -/
def altEp (cs : List Char) : Option Nat :=
  match wordNum ['e', 'p', 'i', 's', 'o', 'd', 'e'] cs with
  | some (n, _) => some n
  | none =>
      match wordNum ['e', 'p'] cs with
      | some (n, _) => some n
      | none =>
          match wordNum ['e'] cs with
          | some (n, _) => some n
          | none => none

/-- The lazy `.*?` before the alternation: try each position from the
left, stopping at a newline. -/
def scanAltEp : List Char → Option Nat
  | [] => none
  | c :: rest =>
      match altEp (c :: rest) with
      | some n => some n
      | none => if c = '\n' then none else scanAltEp rest

/-- `re.search(r'Season\s*(\d+).*?(?:Episode|Ep|E)\s*(\d+)', filename,
IGNORECASE)`: find the leftmost `Season` occurrence followed by digits
and, before the next newline, an episode word with digits. -/
def seasonSearch : List Char → Option (Nat × Nat)
  | [] => none
  | c :: rest =>
      match wordNum ['s', 'e', 'a', 's', 'o', 'n'] (c :: rest) with
      | some (sn, after) =>
          (match scanAltEp after with
           | some en => some (sn, en)
           | none => seasonSearch rest)
      | none => seasonSearch rest

/-- Language detection, lines 204-212. -/
def detectLanguage (filename : String) : Option String :=
  let lf := pyLower filename
  if pyIn ".en." lf || pyIn ".eng." lf || pyIn ".english." lf then some "en"
  else if pyIn ".es." lf || pyIn ".esp." lf || pyIn ".spanish." lf then some "es"
  else if pyIn "VOSE" filename || pyIn "VO" filename then some "en"
  else if pyIn "ESPAÑOL" filename || pyIn "ESP" filename then some "es"
  else none

/-- Split a character list at slashes. -/
def splitSlash : List Char → List (List Char)
  | [] => [[]]
  | c :: cs =>
      if c = '/' then [] :: splitSlash cs
      else
        match splitSlash cs with
        | [] => [[c]]
        | p :: ps => (c :: p) :: ps

/-- Model of `pathlib.Path(filename).parts` for POSIX paths. -/
def pathParts (s : String) : List String :=
  (if s.data.head? = some '/' then ["/"] else []) ++
    (((splitSlash s.data).map fun l => String.mk l).filter fun p => p ≠ "")

/-- The tuple returned by `extract_episode_info`. -/
structure EpInfo where
  series : Option String
  season : Nat
  episode : Nat
  quality : Option String
  language : Option String
deriving DecidableEq

/-- The four mutable variables of the function body. -/
structure ExtState where
  series : Option String
  season : Option Nat
  episode : Option Nat
  quality : Option String
deriving DecidableEq

/-- Python truthiness `not season_num`: `None` and `0` are falsy. -/
def seasonFalsy (st : ExtState) : Bool :=
  st.season = none || st.season = some 0

/-- Embedding of `extract_episode_info`.  The three patterns are tried in
order; the second and third run only while `season_num` is falsy (which
includes a parsed season 0), exactly as in the source. -/
def extract_episode_info (filename : String) : Option EpInfo :=
  let base := (pySplitext (pyBasename filename)).1.data
  let st1 : ExtState :=
    match scanSearch checkTok base with
    | some (g1, sn, en, q) =>
        ⟨some ⟨g1.map fun c => if c = '.' then ' ' else c⟩, some sn, some en, some ⟨q⟩⟩
    | none => ⟨none, none, none, none⟩
  let st2 : ExtState :=
    if seasonFalsy st1 then
      match scanSearch checkTokX base with
      | some (g1, sn, en, q) =>
          ⟨some ⟨g1.map fun c => if c = '.' then ' ' else c⟩, some sn, some en, some ⟨q⟩⟩
      | none => st1
    else st1
  let st3 : ExtState :=
    if seasonFalsy st2 then
      match seasonSearch filename.data with
      | some (sn, en) =>
          ⟨if (pathParts filename).length > 2 then
              (pathParts filename).get? ((pathParts filename).length - 3)
            else st2.series,
           some sn, some en, st2.quality⟩
      | none => st2
    else st2
  match st3.season, st3.episode with
  | some sn, some en => some ⟨st3.series, sn, en, st3.quality, detectLanguage filename⟩
  | _, _ => none

theorem scanInner_reach (chk : List Char → Option (Nat × Nat × List Char)) :
    ∀ (pre acc tokrest : List Char) (r : Nat × Nat × List Char),
      pre ≠ [] → (∀ c ∈ pre, ¬ (c = '\n')) →
      (∀ j, 1 ≤ j → j < pre.length → chk ((pre ++ tokrest).drop j) = none) →
      chk tokrest = some r →
      scanInner chk acc (pre ++ tokrest) = some (acc ++ pre, r) := by
  intro pre
  induction pre with
  | nil => intro acc tokrest r h; exact absurd rfl h
  | cons a pre' ih =>
      intro acc tokrest r _ hnl hj htok
      have ha : ¬ (a = '\n') := hnl a (List.mem_cons_self a pre')
      cases pre' with
      | nil =>
          rw [List.cons_append, List.nil_append, scanInner, if_neg ha, htok]
      | cons b pre'' =>
          rw [List.cons_append, scanInner, if_neg ha]
          have h1 : chk ((b :: pre'') ++ tokrest) = none := by
            have := hj 1 (by omega) (by simp)
            simpa using this
          rw [h1]
          have := ih (acc ++ [a]) tokrest r (by simp)
            (fun c hc => hnl c (List.mem_cons_of_mem a hc))
            (fun j h1j hjl => by
              have := hj (j + 1) (by omega)
                (by simp only [List.length_cons] at hjl ⊢; omega)
              simpa using this)
            htok
          rw [this, List.append_assoc]
          rfl

theorem scanInner_stop (chk : List Char → Option (Nat × Nat × List Char)) :
    ∀ (pre acc tokrest : List Char),
      '\n' ∈ pre →
      (∀ j, 1 ≤ j → j < pre.length → chk ((pre ++ tokrest).drop j) = none) →
      scanInner chk acc (pre ++ tokrest) = none := by
  intro pre
  induction pre with
  | nil => intro acc tokrest h; simp at h
  | cons a pre' ih =>
      intro acc tokrest hmem hj
      by_cases ha : a = '\n'
      · rw [List.cons_append, scanInner, if_pos ha]
      · have hmem' : '\n' ∈ pre' := by
          rcases List.mem_cons.mp hmem with h | h
          · exact absurd h.symm ha
          · exact h
        have hne : pre' ≠ [] := by
          intro h; rw [h] at hmem'; simp at hmem'
        rw [List.cons_append, scanInner, if_neg ha]
        have h1 : chk (pre' ++ tokrest) = none := by
          have hlen : 1 < (a :: pre').length := by
            cases pre' with
            | nil => exact absurd rfl hne
            | cons _ _ => simp
          have := hj 1 (by omega) hlen
          simpa using this
        rw [h1]
        exact ih (acc ++ [a]) tokrest hmem'
          (fun j h1j hjl => by
            have := hj (j + 1) (by omega)
              (by simp only [List.length_cons] at hjl ⊢; omega)
            simpa using this)

theorem scanSearch_reach (chk : List Char → Option (Nat × Nat × List Char)) :
    ∀ (pre tokrest : List Char) (r : Nat × Nat × List Char),
      pre ≠ [] → (∀ d, pre.getLast? = some d → ¬ (d = '\n')) →
      (∀ j, j < pre.length → chk ((pre ++ tokrest).drop j) = none) →
      chk tokrest = some r →
      ∃ g1, scanSearch chk (pre ++ tokrest) = some (g1, r) := by
  intro pre
  induction pre with
  | nil => intro tokrest r h; exact absurd rfl h
  | cons a pre' ih =>
      intro tokrest r _ hlast hj htok
      by_cases hnl : ∀ c ∈ a :: pre', ¬ (c = '\n')
      · refine ⟨a :: pre', ?_⟩
        have hin := scanInner_reach chk (a :: pre') [] tokrest r (by simp) hnl
          (fun j h1j hjl => hj j hjl) htok
        rw [List.cons_append] at hin ⊢
        rw [scanSearch, hin]
        rfl
      · have hmem : '\n' ∈ a :: pre' := by
          simp only [not_forall] at hnl
          obtain ⟨c, hc, hcn⟩ := hnl
          simp only [not_not] at hcn
          exact hcn ▸ hc
        have hin := scanInner_stop chk (a :: pre') [] tokrest hmem
          (fun j h1j hjl => hj j hjl)
        have hne : pre' ≠ [] := by
          intro h
          subst h
          rcases List.mem_cons.mp hmem with h | h
          · exact hlast a rfl h.symm
          · simp at h
        rw [List.cons_append] at hin
        rw [List.cons_append, scanSearch, hin]
        exact ih tokrest r hne
          (fun d hd => hlast d (by
            cases pre' with
            | nil => exact absurd rfl hne
            | cons b t => rw [List.getLast?_cons_cons]; exact hd))
          (fun j hjl => by
            have := hj (j + 1)
              (by simp only [List.length_cons] at hjl ⊢; omega)
            simpa using this)
          htok

theorem scanSearch_none (chk : List Char → Option (Nat × Nat × List Char)) :
    ∀ (cs : List Char), (∀ j, chk (cs.drop j) = none) →
      (∀ acc, scanInner chk acc cs = none) ∧ scanSearch chk cs = none := by
  intro cs
  induction cs with
  | nil => exact fun _ => ⟨fun _ => rfl, rfl⟩
  | cons c rest ih =>
      intro h
      have hrest : ∀ j, chk (rest.drop j) = none := fun j => by
        have := h (j + 1)
        simpa using this
      have hr := ih hrest
      have hinner : ∀ acc, scanInner chk acc (c :: rest) = none := by
        intro acc
        by_cases hc : c = '\n'
        · rw [scanInner, if_pos hc]
        · rw [scanInner, if_neg hc]
          have h1 : chk rest = none := by
            have := h 1
            simpa using this
          rw [h1]
          exact hr.1 (acc ++ [c])
      refine ⟨hinner, ?_⟩
      rw [scanSearch, hinner []]
      exact hr.2

/-- Splitting a digit run followed by a non-digit: `takeWhile` returns the
run and dropping its length exposes the rest. -/
theorem digitRun_split (sd : List Char) (c : Char) (rest : List Char)
    (hsd : ∀ d ∈ sd, isDig d = true) (hc : isDig c = false) :
    (sd ++ c :: rest).takeWhile isDig = sd ∧
      (sd ++ c :: rest).drop sd.length = c :: rest := by
  constructor
  · rw [takeWhile_append_all (c :: rest) hsd, List.takeWhile_cons, if_neg (by simp [hc])]
    simp
  · exact List.drop_left sd (c :: rest)

theorem sep_not_digit {c3 : Char} (hc3 : sepOK c3 = true) : isDig c3 = false := by
  rw [sepOK, pyIsSpace] at hc3
  simp only [Bool.or_eq_true, decide_eq_true_eq] at hc3
  rcases hc3 with (h | (((((h | h) | h) | h) | h) | h)) | h <;> subst h <;> decide

theorem checkTok_concat (sd ed q : List Char) (cS cE c3 : Char)
    (hS : cS = 'S' ∨ cS = 's') (hE : cE = 'E' ∨ cE = 'e')
    (hsd : sd ≠ []) (hsdd : ∀ c ∈ sd, isDig c = true)
    (hed : ed ≠ []) (hedd : ∀ c ∈ ed, isDig c = true)
    (hc3 : sepOK c3 = true) (hq1 : ∀ d t, q = d :: t → ¬(d = '\n')) (hq : q ≠ []) :
    checkTok ('.' :: cS :: (sd ++ cE :: (ed ++ c3 :: q))) =
      some (natOfDigits sd, natOfDigits ed, q.takeWhile fun c => c ≠ '\n') := by
  have hEd : isDig cE = false := by
    rcases hE with h | h <;> rw [h] <;> decide
  obtain ⟨h1, h2⟩ := digitRun_split sd cE (ed ++ c3 :: q) hsdd hEd
  obtain ⟨h3, h4⟩ := digitRun_split ed c3 q hedd (sep_not_digit hc3)
  rw [checkTok]
  rw [if_pos hS]
  simp only [h1, h2]
  rw [if_neg hsd]
  rw [if_pos hE]
  simp only [h3, h4]
  rw [if_neg hed]
  rw [if_pos hc3]
  cases hqc : q with
  | nil => exact absurd hqc hq
  | cons d t =>
      have hd := hq1 d t hqc
      have hqt : (d :: t).takeWhile (fun c => c ≠ '\n') =
          d :: t.takeWhile (fun c => c ≠ '\n') := by
        rw [List.takeWhile_cons, if_pos (by simp [hd])]
      rw [hqt, if_neg (by simp)]

theorem checkTokX_concat (sd ed q : List Char) (cx c3 : Char)
    (hX : cx = 'x' ∨ cx = 'X')
    (hsd : sd ≠ []) (hsdd : ∀ c ∈ sd, isDig c = true)
    (hed : ed ≠ []) (hedd : ∀ c ∈ ed, isDig c = true)
    (hc3 : sepOK c3 = true) (hq1 : ∀ d t, q = d :: t → ¬(d = '\n')) (hq : q ≠ []) :
    checkTokX ('.' :: (sd ++ cx :: (ed ++ c3 :: q))) =
      some (natOfDigits sd, natOfDigits ed, q.takeWhile fun c => c ≠ '\n') := by
  have hXd : isDig cx = false := by
    rcases hX with h | h <;> rw [h] <;> decide
  obtain ⟨h1, h2⟩ := digitRun_split sd cx (ed ++ c3 :: q) hsdd hXd
  obtain ⟨h3, h4⟩ := digitRun_split ed c3 q hedd (sep_not_digit hc3)
  rw [checkTokX]
  simp only [h1, h2]
  rw [if_neg hsd]
  rw [if_pos hX]
  simp only [h3, h4]
  rw [if_neg hed]
  rw [if_pos hc3]
  cases hqc : q with
  | nil => exact absurd hqc hq
  | cons d t =>
      have hd := hq1 d t hqc
      have hqt : (d :: t).takeWhile (fun c => c ≠ '\n') =
          d :: t.takeWhile (fun c => c ≠ '\n') := by
        rw [List.takeWhile_cons, if_pos (by simp [hd])]
      rw [hqt, if_neg (by simp)]

set_option maxHeartbeats 1600000 in
/-- C4 counterexample: episode extraction is sensitive to the text around
the token.  `Show.S01E02.mkv` contains the token `S01E02` but extraction
fails because, once the extension is stripped, nothing follows the token
(the pattern requires a separator and a nonempty tail); `S01E02.x.mkv`
fails because nothing precedes it (the pattern requires a nonempty
dot-terminated prefix).  With both a prefix and a suffix present the same
token is extracted. -/
theorem c4_extraction_counterexample :
    extract_episode_info "Show.S01E02.mkv" = none ∧
    extract_episode_info "S01E02.x.mkv" = none ∧
    (extract_episode_info "Show.S01E02.x.mkv").map (fun i => (i.season, i.episode))
      = some (1, 2) := by
  refine ⟨by decide, by decide, by decide⟩

/-- C4 amended: extraction does return the token values, independently of
the surrounding text, provided the token is well-placed: in the base name
(extension stripped) it must be preceded by a nonempty prefix not ending
in a newline and immediately by a dot, followed by a separator and a
nonempty non-newline remainder, no earlier position may start a token,
and the season must be nonzero (a zero season falls through to the later
patterns).  The first conjunct treats `S<season>E<episode>`, the second
`<season>x<episode>` (which additionally requires that the
`S<season>E<episode>` pattern matches nowhere in the base name, since it
is tried first). -/
theorem c4_extraction_amended :
    (∀ (f : String) (pre sd ed q : List Char) (cS cE c3 : Char),
      (pySplitext (pyBasename f)).1.data = pre ++ '.' :: cS :: (sd ++ cE :: (ed ++ c3 :: q)) →
      (cS = 'S' ∨ cS = 's') → (cE = 'E' ∨ cE = 'e') →
      sd ≠ [] → (∀ c ∈ sd, isDig c = true) →
      ed ≠ [] → (∀ c ∈ ed, isDig c = true) →
      sepOK c3 = true → (∀ d t, q = d :: t → ¬(d = '\n')) → q ≠ [] →
      pre ≠ [] → (∀ d, pre.getLast? = some d → ¬ (d = '\n')) →
      natOfDigits sd ≠ 0 →
      (∀ j, j < pre.length →
        checkTok ((pySplitext (pyBasename f)).1.data.drop j) = none) →
      (extract_episode_info f).map (fun i => (i.season, i.episode)) =
        some (natOfDigits sd, natOfDigits ed)) ∧
    (∀ (f : String) (pre sd ed q : List Char) (cx c3 : Char),
      (pySplitext (pyBasename f)).1.data = pre ++ '.' :: (sd ++ cx :: (ed ++ c3 :: q)) →
      (cx = 'x' ∨ cx = 'X') →
      sd ≠ [] → (∀ c ∈ sd, isDig c = true) →
      ed ≠ [] → (∀ c ∈ ed, isDig c = true) →
      sepOK c3 = true → (∀ d t, q = d :: t → ¬(d = '\n')) → q ≠ [] →
      pre ≠ [] → (∀ d, pre.getLast? = some d → ¬ (d = '\n')) →
      natOfDigits sd ≠ 0 →
      (∀ j, j ≤ (pySplitext (pyBasename f)).1.data.length →
        checkTok ((pySplitext (pyBasename f)).1.data.drop j) = none) →
      (∀ j, j < pre.length →
        checkTokX ((pySplitext (pyBasename f)).1.data.drop j) = none) →
      (extract_episode_info f).map (fun i => (i.season, i.episode)) =
        some (natOfDigits sd, natOfDigits ed)) := by
  constructor
  · intro f pre sd ed q cS cE c3 hdecomp hS hE hsd hsdd hed hedd hc3 hq1 hq
      hpre hlast hsn hj
    have htok := checkTok_concat sd ed q cS cE c3 hS hE hsd hsdd hed hedd hc3 hq1 hq
    obtain ⟨g1, hsc⟩ := scanSearch_reach checkTok pre
      ('.' :: cS :: (sd ++ cE :: (ed ++ c3 :: q))) _ hpre hlast
      (by rw [← hdecomp]; exact hj) htok
    rw [← hdecomp] at hsc
    rw [extract_episode_info]
    simp only [hsc]
    simp [seasonFalsy, hsn]
  · intro f pre sd ed q cx c3 hdecomp hX hsd hsdd hed hedd hc3 hq1 hq
      hpre hlast hsn hstdall hjx
    have hall : ∀ j, checkTok ((pySplitext (pyBasename f)).1.data.drop j) = none := by
      intro j
      by_cases hjl : j ≤ (pySplitext (pyBasename f)).1.data.length
      · exact hstdall j hjl
      · rw [List.drop_eq_nil_of_le (by omega)]
        rfl
    have hstd := (scanSearch_none checkTok _ hall).2
    have htok := checkTokX_concat sd ed q cx c3 hX hsd hsdd hed hedd hc3 hq1 hq
    obtain ⟨g1, hsc⟩ := scanSearch_reach checkTokX pre
      ('.' :: (sd ++ cx :: (ed ++ c3 :: q))) _ hpre hlast
      (by rw [← hdecomp]; exact hjx) htok
    rw [← hdecomp] at hsc
    rw [extract_episode_info]
    simp only [hstd, hsc]
    simp [seasonFalsy, hsn]

set_option maxHeartbeats 1600000 in
/-- Witness for the amended C4 at concrete inputs for both patterns. -/
theorem c4_extraction_amended_witness :
    (extract_episode_info "Show.S01E02.x.mkv").map (fun i => (i.season, i.episode))
        = some (1, 2) ∧
    (extract_episode_info "Movie.3x04.hd.mkv").map (fun i => (i.season, i.episode))
        = some (3, 4) := by
  constructor
  · exact (c4_extraction_amended.1 "Show.S01E02.x.mkv"
      ['S', 'h', 'o', 'w'] ['0', '1'] ['0', '2'] ['x'] 'S' 'E' '.'
      (by decide) (by decide) (by decide) (by decide) (by decide) (by decide)
      (by decide) (by decide) (by intro d t h; cases h; decide) (by decide)
      (by decide) (by intro d h; cases h; decide) (by decide)
      (by decide)).trans (by decide)
  · exact (c4_extraction_amended.2 "Movie.3x04.hd.mkv"
      ['M', 'o', 'v', 'i', 'e'] ['3'] ['0', '4'] ['h', 'd'] 'x' '.'
      (by decide) (by decide) (by decide) (by decide) (by decide) (by decide)
      (by decide) (by intro d t h; cases h; decide) (by decide)
      (by decide) (by intro d h; cases h; decide) (by decide)
      (by decide) (by decide)).trans (by decide)

/-!
`search_for_vo_and_es_files(series, season, search_paths)` from
src/src/routes/processor.py lines 258-444, together with
`is_path_allowed` (lines 238-256), `get_file_similarity` (lines 220-236)
and the `difflib.SequenceMatcher.ratio` similarity it relies on.

`difflib` is modelled without the autojunk heuristic (it only alters
results for strings of 200 characters or more); float similarity scores
are exact rationals.  `os.walk` is the oracle
`walk : String → List (String × String)` giving the `(root, filename)`
pairs enumerated under a search path, and the media root is an explicit
argument instead of the Flask configuration lookup.
-/

/-- Length of the common prefix of two character lists. -/
def commonPrefixLen : List Char → List Char → Nat
  | a :: as, b :: bs => if a = b then commonPrefixLen as bs + 1 else 0
  | _, _ => 0

/-- `SequenceMatcher.find_longest_match` over whole strings (no junk): the
longest matching block, earliest in `a` and then earliest in `b` among
maximal ones, as `(i, j, size)`. -/
def flm (a b : List Char) : Nat × Nat × Nat :=
  (List.range a.length).foldl
    (fun acc i =>
      (List.range b.length).foldl
        (fun acc2 j =>
          let k := commonPrefixLen (a.drop i) (b.drop j)
          if k > acc2.2.2 then (i, j, k) else acc2)
        acc)
    (0, 0, 0)

/-- Total size of the matching blocks (the recursive decomposition of
`get_matching_blocks`), with fuel bounded by the total length, which each
recursive step strictly decreases. -/
def matchSumGo : Nat → List Char → List Char → Nat
  | 0, _, _ => 0
  | fuel + 1, a, b =>
      match flm a b with
      | (i, j, k) =>
          if k = 0 then 0
          else
            k + matchSumGo fuel (a.take i) (b.take j) +
              matchSumGo fuel (a.drop (i + k)) (b.drop (j + k))

def matchSum (a b : List Char) : Nat := matchSumGo (a.length + b.length) a b

/-- An unreduced nonnegative fraction with positive denominator: the
exact value of a similarity score.  Comparisons are by
cross-multiplication, which agrees with comparison of the rational
values. -/
structure Frac where
  num : Nat
  den : Nat
deriving DecidableEq

/-- Strict comparison of exact fractions. -/
def Frac.ltF (x y : Frac) : Bool := x.num * y.den < y.num * x.den

/-- `SequenceMatcher(None, a, b).ratio()` as an exact fraction
`2*matches / (len(a)+len(b))` (`1.0` for two empty strings). -/
def seqSimilarity (a b : List Char) : Frac :=
  if a.length + b.length = 0 then ⟨1, 1⟩
  else ⟨2 * matchSum a b, a.length + b.length⟩

/-- `get_file_similarity`: similarity of the base names without
extensions. -/
def get_file_similarity (file1 file2 : String) : Frac :=
  seqSimilarity (pySplitext (pyBasename file1)).1.data
    (pySplitext (pyBasename file2)).1.data

/-- A minimal POSIX `os.path.join` for a directory and a plain file name. -/
def pyJoin (root file : String) : String :=
  if root = "" then file
  else if pyEndsWith root "/" then root ++ file
  else root ++ "/" ++ file

/-- Join path components with slashes. -/
def joinSlash : List String → String
  | [] => ""
  | [a] => a
  | a :: rest => a ++ "/" ++ joinSlash rest

/-- POSIX `os.path.normpath` (without the special-cased `//` root). -/
def normpath (p : String) : String :=
  if p = "" then "."
  else
    let isAbs := p.data.head? = some '/'
    let comps := ((splitSlash p.data).map fun l => String.mk l).filter
      fun c => c ≠ "" && c ≠ "."
    let newComps := comps.foldl
      (fun acc comp =>
        if comp ≠ ".." ∨ (¬ isAbs ∧ acc = []) ∨ acc.getLast? = some ".." then
          acc ++ [comp]
        else if acc ≠ [] then acc.dropLast
        else acc)
      []
    let joined := joinSlash newComps
    let res := if isAbs then "/" ++ joined else joined
    if res = "" then "." else res

/-- `is_path_allowed(path)`, lines 238-256, with the media root passed
explicitly. -/
def is_path_allowed (mediaRoot path : String) : Bool :=
  let np := normpath path
  let nm := normpath mediaRoot
  np = nm || prefCL (nm ++ "/").data np.data

/-- The eligibility filter `file.lower().endswith(('.mkv', '.mp4', '.avi'))`. -/
def isVideoFile (file : String) : Bool :=
  pyEndsWith (pyLower file) ".mkv" || pyEndsWith (pyLower file) ".mp4" ||
    pyEndsWith (pyLower file) ".avi"

/-- `any(re.search(p, file, IGNORECASE) for p in vo_patterns)`. -/
def isVOname (file : String) : Bool :=
  ciIn ".en." file || ciIn ".eng." file || ciIn ".english." file ||
    ciIn "VOSE" file || ciIn "VO" file

/-- `any(re.search(p, file, IGNORECASE) for p in es_patterns)`. -/
def isESname (file : String) : Bool :=
  ciIn ".es." file || ciIn ".esp." file || ciIn ".spanish." file ||
    ciIn "ESPAÑOL" file || ciIn "ESP" file

/-- Folder-structure fallback classification, lines 334-341: returns
`(is_vo, is_es)`. -/
def classifyByFolder (root : String) : Bool × Bool :=
  if pyIn "english" (pyLower root) || pyIn "vo" (pyLower root) ||
      pyIn "original" (pyLower root) then (true, false)
  else if pyIn "spanish" (pyLower root) || pyIn "es" (pyLower root) ||
      pyIn "español" (pyLower root) then (false, true)
  else (true, false)

/-- Classification of one file, lines 329-341. -/
def classifyFile (root file : String) : Bool × Bool :=
  let is_vo := isVOname file
  let is_es := isESname file
  if ¬ is_vo ∧ ¬ is_es then classifyByFolder root else (is_vo, is_es)

/-- Decimal digits of a natural number. -/
def natDigits (n : Nat) : List Char := Nat.toDigits 10 n

/-- `0*<digits of n>`: some run of zeros followed by the decimal digits. -/
def zeroStarMatch (w : List Char) : List Char → Bool
  | [] => prefCL w []
  | c :: rest => prefCL w (c :: rest) || (c = '0' && zeroStarMatch w rest)

/-- One alternation of the season pattern
`S0*{n}|Season\s*{n}|{n}x\d+` (IGNORECASE) at one position. -/
def seasonPatternAt (n : Nat) (cs : List Char) : Bool :=
  (match cs with
   | c :: rest => (c = 'S' || c = 's') && zeroStarMatch (natDigits n) rest
   | [] => false) ||
  (match stripCI ['s', 'e', 'a', 's', 'o', 'n'] cs with
   | some rest => prefCL (natDigits n) (rest.drop (rest.takeWhile pyIsSpace).length)
   | none => false) ||
  (prefCL (natDigits n) cs &&
    (match cs.drop (natDigits n).length with
     | c :: r2 => (c = 'x' || c = 'X') &&
         (match r2 with | d :: _ => isDig d | [] => false)
     | [] => false))

/-- `re.search` of the season pattern anywhere in a string. -/
def seasonPatternSearch (n : Nat) : List Char → Bool
  | [] => false
  | c :: rest => seasonPatternAt n (c :: rest) || seasonPatternSearch n rest

def seasonMatches (n : Nat) (s : String) : Bool := seasonPatternSearch n s.data

/-- The enumeration/filter/classification loop of
`search_for_vo_and_es_files`, lines 307-347: walk every valid search
path, keep eligible video files passing the series and season filters,
and classify them into the VO and ES lists. -/
def collectFiles (walk : String → List (String × String)) (series : Option String)
    (season : Option Nat) (paths : List String) : List String × List String :=
  paths.foldl
    (fun acc sp =>
      (walk sp).foldl
        (fun acc2 rf =>
          let root := rf.1
          let file := rf.2
          if ¬ isVideoFile file then acc2
          else if (match series with
                   | some ser => ! (ciIn ser file || ciIn ser root)
                   | none => false) then acc2
          else if (match season with
                   | some n => ! (seasonMatches n file || seasonMatches n root)
                   | none => false) then acc2
          else
            let full_path := pyJoin root file
            let cls := classifyFile root file
            if cls.1 then (acc2.1 ++ [full_path], acc2.2)
            else if cls.2 then (acc2.1, acc2.2 ++ [full_path])
            else acc2)
        acc)
    ([], [])

/-- Python dict as an insertion-ordered association list: assignment
keeps an existing key at its position and overwrites its value, or
appends a new binding at the end. -/
def dInsert {α : Type} : List (String × α) → String → α → List (String × α)
  | [], k, v => [(k, v)]
  | (k0, v0) :: rest, k, v =>
      if k0 = k then (k0, v) :: rest else (k0, v0) :: dInsert rest k v

/-- Python dict lookup. -/
def dLookup {α : Type} (m : List (String × α)) (k : String) : Option α :=
  (m.find? fun p => p.1 = k).map fun p => p.2

/-- `defaultdict(list)` append: extend the list at a key, creating it at
the end when absent. -/
def dAppend (m : List (String × List String)) (k : String) (f : String) :
    List (String × List String) :=
  match m with
  | [] => [(k, [f])]
  | (k0, l) :: rest =>
      if k0 = k then (k0, l ++ [f]) :: rest else (k0, l) :: dAppend rest k f

/-- Pointwise update of the list stored at a key. -/
def dUpdate (m : List (String × List String)) (k : String)
    (f : List String → List String) : List (String × List String) :=
  m.map fun p => if p.1 = k then (p.1, f p.2) else p

/-- `list.remove`: drop the first occurrence. -/
def removeFirst (l : List String) (x : String) : List String :=
  match l with
  | [] => []
  | a :: rest => if a = x then rest else a :: removeFirst rest x

/-- The canonical episode key `S<season:2>E<episode:2>`. -/
def pad2 (n : Nat) : String :=
  if n < 10 then "0" ++ String.mk (natDigits n) else String.mk (natDigits n)

def episodeKeyStr (sn en : Nat) : String := "S" ++ pad2 sn ++ "E" ++ pad2 en

/-- The loops building `vo_info` / `es_info`, lines 358-372: map each
extracted episode key to the (last) file carrying it. -/
def buildInfo (files : List String) : List (String × String) :=
  files.foldl
    (fun m f =>
      match extract_episode_info f with
      | some info => dInsert m (episodeKeyStr info.season info.episode) f
      | none => m)
    []

/-- The exact-key matching loop, lines 374-377. -/
def exactMatch (vo_info es_info : List (String × String)) :
    List (String × String × String) :=
  vo_info.foldl
    (fun m kv =>
      match dLookup es_info kv.1 with
      | some esf => dInsert m kv.1 (kv.2, esf)
      | none => m)
    []

/-- The grouping token `^(.+?)(?:\.S\d+|\.E\d+|\.\d+x\d+)`
(case-sensitive) tested at a boundary. -/
def chkGroup (cs : List Char) : Bool :=
  match cs with
  | '.' :: rest =>
      (match rest with
       | 'S' :: r2 => (match r2 with | d :: _ => isDig d | [] => false)
       | _ => false) ||
      (match rest with
       | 'E' :: r2 => (match r2 with | d :: _ => isDig d | [] => false)
       | _ => false) ||
      (match rest.takeWhile isDig with
       | [] => false
       | ds =>
          (match rest.drop ds.length with
           | 'x' :: r2 => (match r2 with | d :: _ => isDig d | [] => false)
           | _ => false))
  | _ => false

/-- Lazy scan for the anchored group pattern: the shortest nonempty
newline-free prefix whose boundary starts an episode-style token. -/
def groupInner : List Char → List Char → Option (List Char)
  | _, [] => none
  | acc, c :: rest =>
      if c = '\n' then none
      else if chkGroup rest then some (acc ++ [c])
      else groupInner (acc ++ [c]) rest

/-- The group key of a file, lines 388-397: the prefix before the first
episode-style token of the base name (with extension), lower-cased, or
the first dot-separated segment. -/
def groupKeyOf (file : String) : String :=
  let base_name := pyBasename file
  match groupInner [] base_name.data with
  | some g1 => pyLower ⟨g1⟩
  | none => pyLower ⟨base_name.data.takeWhile fun c => c ≠ '.'⟩

/-- Group a list of files by `groupKeyOf` into an insertion-ordered
`defaultdict(list)`. -/
def groupFiles (files : List String) : List (String × List String) :=
  files.foldl (fun m f => dAppend m (groupKeyOf f) f) []

/-- Selection of the ES group most similar to a VO group key, lines
412-421: strict improvement over the running best, threshold `0.6`, ties
to the first candidate. -/
def bestGroup (gk : String) (es_groups : List (String × List String)) :
    Option String :=
  (es_groups.foldl
    (fun best eg =>
      let sim := seqSimilarity gk.data eg.1.data
      if best.2.ltF sim && Frac.ltF ⟨3, 5⟩ sim then (some eg.1, sim) else best)
    ((none : Option String), (⟨0, 1⟩ : Frac))).1

/-- Selection of the most similar ES file within a group, lines 425-433:
threshold `0.5`, ties to the first candidate. -/
def bestFile (vo_file : String) (gl : List String) : Option String :=
  (gl.foldl
    (fun best esf =>
      let sim := get_file_similarity vo_file esf
      if best.2.ltF sim && Frac.ltF ⟨1, 2⟩ sim then (some esf, sim) else best)
    ((none : Option String), (⟨0, 1⟩ : Frac))).1

/-- One iteration of the outer fuzzy loop (one VO group): pick the best
ES group once, then greedily match each VO file of the group against the
current contents of that ES group, removing each selected ES file. -/
def fuzzyStep (st : List (String × String × String) × List (String × List String))
    (gk : String) (vol : List String) :
    List (String × String × String) × List (String × List String) :=
  match bestGroup gk st.2 with
  | none => st
  | some bg =>
      vol.foldl
        (fun st2 vo_file =>
          let gl := match dLookup st2.2 bg with
            | some l => l
            | none => []
          match bestFile vo_file gl with
          | none => st2
          | some esf =>
              (dInsert st2.1 ⟨(pySplitext (pyBasename vo_file)).1.data⟩ (vo_file, esf),
               dUpdate st2.2 bg fun l => removeFirst l esf))
        st

/-- The whole fuzzy phase, lines 379-441. -/
def fuzzyMatch (matched : List (String × String × String))
    (remaining_vo remaining_es : List String) : List (String × String × String) :=
  ((groupFiles remaining_vo).foldl (fun st vg => fuzzyStep st vg.1 vg.2)
    (matched, groupFiles remaining_es)).1

/-- Embedding of `search_for_vo_and_es_files(series, season, search_paths)`. -/
def search_for_vo_and_es_files (mediaRoot : String)
    (walk : String → List (String × String)) (series : Option String)
    (season : Option Nat) (search_paths : List String) :
    List (String × String × String) :=
  if search_paths = [] then []
  else
    let valid := search_paths.filter fun p => is_path_allowed mediaRoot p
    if valid = [] then []
    else
      let files := collectFiles walk series season valid
      let vo_info := buildInfo files.1
      let es_info := buildInfo files.2
      let matched := exactMatch vo_info es_info
      let remaining_vo := files.1.filter fun f => ¬ matched.any fun kv => f = kv.2.1
      let remaining_es := files.2.filter fun f => ¬ matched.any fun kv => f = kv.2.2
      fuzzyMatch matched remaining_vo remaining_es

/-- Walk oracle of the C8 counterexample: the search paths `/m` and
`/m/s` overlap, so the file under `/m/s` is enumerated twice, exactly as
`os.walk` over both roots would. -/
def walkC8 : String → List (String × String) := fun p =>
  if p = "/m" then
    [("/m", "abcd1.mkv"), ("/m", "abcd2.mkv"), ("/m/s", "abcd.es.mkv")]
  else if p = "/m/s" then [("/m/s", "abcd.es.mkv")]
  else []

/-- Walk oracle used for C7: the same pair of matchable files is listed
under whichever root is walked. -/
def walkC7 : String → List (String × String) := fun _ =>
  [("/m", "a.en.mkv"), ("/m", "a.es.mkv")]

set_option maxHeartbeats 1600000 in
/-- C7 counterexample: the engine does sandbox-filter the supplied search
paths.  With a walk oracle that would enumerate a matchable VO/ES pair
under any root, a root outside the media root `/m` yields the empty
mapping (the root is skipped by `is_path_allowed`), while the same walk
under the media root itself yields the pair. -/
theorem c7_engine_filters_roots :
    search_for_vo_and_es_files "/m" walkC7 none none ["/outside"] = [] ∧
    search_for_vo_and_es_files "/m" walkC7 none none ["/m"] =
      [("a.en", "/m/a.en.mkv", "/m/a.es.mkv")] := by
  exact ⟨by decide, by decide⟩

/-- C7 amended: the pairing engine itself filters the supplied search
paths against the authorized media root (via `is_path_allowed`),
ignoring any root outside it, and then enumerates files under every
surviving root: the search result is exactly the result over the
pre-filtered path list. -/
theorem c7_engine_sandbox_filter_amended (mediaRoot : String)
    (walk : String → List (String × String)) (series : Option String)
    (season : Option Nat) (paths : List String) :
    search_for_vo_and_es_files mediaRoot walk series season paths =
      search_for_vo_and_es_files mediaRoot walk series season
        (paths.filter fun p => is_path_allowed mediaRoot p) := by
  by_cases h0 : paths = []
  · subst h0; rfl
  · rw [search_for_vo_and_es_files, search_for_vo_and_es_files, if_neg h0]
    by_cases hv : paths.filter (fun p => is_path_allowed mediaRoot p) = []
    · rw [if_pos hv, hv]
      simp
    · rw [if_neg hv]
      have hidem : (paths.filter fun p => is_path_allowed mediaRoot p).filter
          (fun p => is_path_allowed mediaRoot p) =
          paths.filter fun p => is_path_allowed mediaRoot p :=
        List.filter_eq_self.mpr fun a ha => List.of_mem_filter ha
      rw [hidem]
      simp only [if_neg hv]

/-- C9: with an empty (or missing, modelled as empty) search-path list,
or when no supplied path lies within the authorized media root, the
search returns the empty mapping immediately; since the conclusion holds
for every walk oracle, no file is enumerated and no external tool is
consulted. -/
theorem c9_no_valid_paths (mediaRoot : String)
    (walk : String → List (String × String)) (series : Option String)
    (season : Option Nat) (paths : List String)
    (h : paths = [] ∨ ∀ p ∈ paths, is_path_allowed mediaRoot p = false) :
    search_for_vo_and_es_files mediaRoot walk series season paths = [] := by
  rcases h with h | h
  · subst h; rfl
  · rw [search_for_vo_and_es_files]
    by_cases h0 : paths = []
    · rw [if_pos h0]
    · rw [if_neg h0]
      have hnil : paths.filter (fun p => is_path_allowed mediaRoot p) = [] := by
        rw [List.filter_eq_nil_iff]
        intro p hp
        simp [h p hp]
      rw [hnil]
      simp

/-- Witness for C9: a single path outside the media root produces the
empty mapping even though the walk oracle lists matchable files. -/
theorem c9_no_valid_paths_witness :
    search_for_vo_and_es_files "/m" walkC7 none none ["/x"] = [] :=
  c9_no_valid_paths "/m" walkC7 none none ["/x"] (Or.inr (by decide))

/-! Structural lemmas about the dictionary operations, used for C2 and C8. -/

theorem dInsert_mem {α : Type} {e : String × α} :
    ∀ {m : List (String × α)} {k : String} {v : α},
      e ∈ dInsert m k v → e ∈ m ∨ e = (k, v) := by
  intro m
  induction m with
  | nil => intro k v h; simp [dInsert] at h; exact Or.inr h
  | cons p rest ih =>
      intro k v h
      rw [dInsert] at h
      by_cases hk : p.1 = k
      · rw [if_pos hk] at h
        rcases List.mem_cons.mp h with h | h
        · right; rw [h, hk]
        · left; exact List.mem_cons_of_mem p h
      · rw [if_neg hk] at h
        rcases List.mem_cons.mp h with h | h
        · left; rw [h]; exact List.mem_cons_self p rest
        · rcases ih h with h | h
          · left; exact List.mem_cons_of_mem p h
          · right; exact h

theorem dInsert_keys_sub {α : Type} {x : String} :
    ∀ {m : List (String × α)} {k : String} {v : α},
      x ∈ (dInsert m k v).map Prod.fst → x ∈ m.map Prod.fst ∨ x = k := by
  intro m k v h
  obtain ⟨e, he, hx⟩ := List.mem_map.mp h
  rcases dInsert_mem he with h1 | h1
  · left; exact List.mem_map.mpr ⟨e, h1, hx⟩
  · right; rw [← hx, h1]

theorem dInsert_keys_nodup {α : Type} :
    ∀ {m : List (String × α)} {k : String} {v : α},
      (m.map Prod.fst).Nodup → ((dInsert m k v).map Prod.fst).Nodup := by
  intro m
  induction m with
  | nil => intro k v _; simp [dInsert]
  | cons p rest ih =>
      intro k v h
      rw [List.map_cons, List.nodup_cons] at h
      rw [dInsert]
      by_cases hk : p.1 = k
      · rw [if_pos hk, List.map_cons, List.nodup_cons]
        exact ⟨h.1, h.2⟩
      · rw [if_neg hk, List.map_cons, List.nodup_cons]
        refine ⟨?_, ih h.2⟩
        intro hmem
        rcases dInsert_keys_sub hmem with h1 | h1
        · exact h.1 h1
        · exact hk h1

theorem dLookup_mem {α : Type} {m : List (String × α)} {k : String} {v : α}
    (h : dLookup m k = some v) : (k, v) ∈ m := by
  rw [dLookup] at h
  cases hf : m.find? (fun p => p.1 = k) with
  | none => rw [hf] at h; simp at h
  | some p =>
      rw [hf] at h
      have hp2 : p.2 = v := by simpa using h
      have hpk : p.1 = k := by
        have := List.find?_some hf
        simpa using this
      have hpm : p ∈ m := List.mem_of_find?_eq_some hf
      have : p = (k, v) := by
        cases p
        simp_all
      rw [← this]
      exact hpm

theorem removeFirst_subset {x y : String} :
    ∀ {l : List String}, x ∈ removeFirst l y → x ∈ l := by
  intro l
  induction l with
  | nil => intro h; simp [removeFirst] at h
  | cons a rest ih =>
      intro h
      rw [removeFirst] at h
      by_cases ha : a = y
      · rw [if_pos ha] at h
        exact List.mem_cons_of_mem a h
      · rw [if_neg ha] at h
        rcases List.mem_cons.mp h with h | h
        · rw [h]; exact List.mem_cons_self a rest
        · exact List.mem_cons_of_mem a (ih h)

theorem removeFirst_nodup {y : String} :
    ∀ {l : List String}, l.Nodup → (removeFirst l y).Nodup := by
  intro l
  induction l with
  | nil => intro _; simp [removeFirst]
  | cons a rest ih =>
      intro h
      rw [List.nodup_cons] at h
      rw [removeFirst]
      by_cases ha : a = y
      · rw [if_pos ha]; exact h.2
      · rw [if_neg ha, List.nodup_cons]
        exact ⟨fun hmem => h.1 (removeFirst_subset hmem), ih h.2⟩

theorem removeFirst_not_mem {y : String} :
    ∀ {l : List String}, l.Nodup → y ∉ removeFirst l y := by
  intro l
  induction l with
  | nil => intro _ h; simp [removeFirst] at h
  | cons a rest ih =>
      intro h hmem
      rw [List.nodup_cons] at h
      rw [removeFirst] at hmem
      by_cases ha : a = y
      · rw [if_pos ha] at hmem
        exact h.1 (ha ▸ hmem)
      · rw [if_neg ha] at hmem
        rcases List.mem_cons.mp hmem with h1 | h1
        · exact ha h1.symm
        · exact ih h.2 h1

/-- Entries of `buildInfo`: the value is one of the input files and the
key is the canonical episode key extracted from that value. -/
theorem buildInfo_entry (P : String → Prop) :
    ∀ (files : List String) (m : List (String × String)),
      (∀ f ∈ files, P f) →
      (∀ e ∈ m, P e.2 ∧ ∃ info, extract_episode_info e.2 = some info ∧
        e.1 = episodeKeyStr info.season info.episode) →
      ∀ e ∈ files.foldl
        (fun m f =>
          match extract_episode_info f with
          | some info => dInsert m (episodeKeyStr info.season info.episode) f
          | none => m) m,
        P e.2 ∧ ∃ info, extract_episode_info e.2 = some info ∧
          e.1 = episodeKeyStr info.season info.episode := by
  intro files
  induction files with
  | nil => intro m _ hm e he; exact hm e he
  | cons f fs ih =>
      intro m hf hm e he
      rw [List.foldl_cons] at he
      refine ih _ (fun g hg => hf g (List.mem_cons_of_mem f hg)) ?_ e he
      intro e2 he2
      cases hx : extract_episode_info f with
      | none => rw [hx] at he2; exact hm e2 he2
      | some info =>
          rw [hx] at he2
          rcases dInsert_mem he2 with h | h
          · exact hm e2 h
          · rw [h]
            exact ⟨hf f (List.mem_cons_self f fs), info, hx, rfl⟩

theorem buildInfo_mem (files : List String) :
    ∀ e ∈ buildInfo files,
      e.2 ∈ files ∧ ∃ info, extract_episode_info e.2 = some info ∧
        e.1 = episodeKeyStr info.season info.episode :=
  buildInfo_entry (· ∈ files) files [] (fun _ hf => hf) (by simp)

/-- Invariant of the exact-matching fold: keys stay duplicate-free and
every entry pairs a `vo_info` binding with the `es_info` binding of the
same key. -/
theorem exactMatch_fold_inv (voi esi : List (String × String)) :
    ∀ (kvs : List (String × String)) (m : List (String × String × String)),
      (∀ kv ∈ kvs, kv ∈ voi) →
      ((m.map Prod.fst).Nodup ∧
        ∀ e ∈ m, (e.1, e.2.1) ∈ voi ∧ (e.1, e.2.2) ∈ esi) →
      (((kvs.foldl
          (fun m kv =>
            match dLookup esi kv.1 with
            | some esf => dInsert m kv.1 (kv.2, esf)
            | none => m) m).map Prod.fst).Nodup ∧
        ∀ e ∈ kvs.foldl
          (fun m kv =>
            match dLookup esi kv.1 with
            | some esf => dInsert m kv.1 (kv.2, esf)
            | none => m) m,
          (e.1, e.2.1) ∈ voi ∧ (e.1, e.2.2) ∈ esi) := by
  intro kvs
  induction kvs with
  | nil => intro m _ hm; exact hm
  | cons kv kvs ih =>
      intro m hkv hm
      rw [List.foldl_cons]
      refine ih _ (fun g hg => hkv g (List.mem_cons_of_mem kv hg)) ?_
      cases hl : dLookup esi kv.1 with
      | none => exact hm
      | some esf =>
          constructor
          · exact dInsert_keys_nodup hm.1
          · intro e he
            rcases dInsert_mem he with h | h
            · exact hm.2 e h
            · rw [h]
              exact ⟨hkv kv (List.mem_cons_self kv kvs), dLookup_mem hl⟩

theorem exactMatch_inv (voi esi : List (String × String)) :
    ((exactMatch voi esi).map Prod.fst).Nodup ∧
      ∀ e ∈ exactMatch voi esi, (e.1, e.2.1) ∈ voi ∧ (e.1, e.2.2) ∈ esi :=
  exactMatch_fold_inv voi esi voi [] (fun _ h => h) (by simp)

/-- Concatenation of all group lists. -/
def allGroupFiles : List (String × List String) → List String
  | [] => []
  | g :: rest => g.2 ++ allGroupFiles rest

theorem mem_AGF_of_entry {gs : List (String × List String)} {g : String}
    {l : List String} {x : String} (he : (g, l) ∈ gs) (hx : x ∈ l) :
    x ∈ allGroupFiles gs := by
  induction gs with
  | nil => simp at he
  | cons p rest ih =>
      rw [allGroupFiles, List.mem_append]
      rcases List.mem_cons.mp he with h | h
      · left
        rw [← h]
        exact hx
      · right; exact ih h

theorem AGF_dAppend_perm (m : List (String × List String)) (k f : String) :
    (allGroupFiles (dAppend m k f)).Perm (allGroupFiles m ++ [f]) := by
  induction m with
  | nil => simp [dAppend, allGroupFiles]
  | cons p rest ih =>
      rw [dAppend]
      by_cases hk : p.1 = k
      · rw [if_pos hk]
        rw [allGroupFiles, allGroupFiles]
        rw [List.append_assoc, List.append_assoc]
        exact List.Perm.append_left p.2 (List.perm_append_comm)
      · rw [if_neg hk]
        rw [allGroupFiles, allGroupFiles, List.append_assoc]
        refine List.Perm.append_left p.2 ?_
        exact ih.trans (List.Perm.refl _)

theorem AGF_groupFiles_perm :
    ∀ (fs : List String) (m : List (String × List String)),
      (allGroupFiles (fs.foldl (fun m f => dAppend m (groupKeyOf f) f) m)).Perm
        (allGroupFiles m ++ fs) := by
  intro fs
  induction fs with
  | nil => intro m; simp
  | cons f fs ih =>
      intro m
      rw [List.foldl_cons]
      refine (ih (dAppend m (groupKeyOf f) f)).trans ?_
      have h1 := AGF_dAppend_perm m (groupKeyOf f) f
      have h2 := h1.append_right fs
      refine h2.trans ?_
      rw [List.append_assoc]
      refine List.Perm.append_left (allGroupFiles m) ?_
      simp

theorem AGF_groupFiles (fs : List String) :
    (allGroupFiles (groupFiles fs)).Perm fs := by
  have := AGF_groupFiles_perm fs []
  simpa [allGroupFiles] using this

/-- A successful `bestFile` selection comes from the candidate list. -/
theorem bestFile_fold_mem (vo : String) :
    ∀ (l : List String) (acc : Option String × Frac) (x : String),
      ((l.foldl
        (fun best esf =>
          let sim := get_file_similarity vo esf
          if best.2.ltF sim && Frac.ltF ⟨1, 2⟩ sim then (some esf, sim) else best)
        acc).1 = some x) → acc.1 = some x ∨ x ∈ l := by
  intro l
  induction l with
  | nil => intro acc x h; exact Or.inl h
  | cons esf rest ih =>
      intro acc x h
      rw [List.foldl_cons] at h
      rcases ih _ x h with h1 | h1
      · by_cases hc : (acc.2.ltF (get_file_similarity vo esf) &&
            Frac.ltF ⟨1, 2⟩ (get_file_similarity vo esf)) = true
        · rw [if_pos hc] at h1
          right
          have : x = esf := by simpa using h1.symm
          rw [this]
          exact List.mem_cons_self esf rest
        · rw [if_neg hc] at h1
          exact Or.inl h1
      · right; exact List.mem_cons_of_mem esf h1

theorem bestFile_mem {vo : String} {l : List String} {x : String}
    (h : bestFile vo l = some x) : x ∈ l := by
  rw [bestFile] at h
  rcases bestFile_fold_mem vo l (none, ⟨0, 1⟩) x h with h1 | h1
  · simp at h1
  · exact h1

/-- Entries after a `dUpdate` come from entries of the original map, with
the stored list either unchanged or transformed. -/
theorem dUpdate_mem {gs : List (String × List String)} {k : String}
    {f : List String → List String} {g : String} {l2 : List String}
    (h : (g, l2) ∈ dUpdate gs k f) :
    ∃ l, (g, l) ∈ gs ∧ (l2 = l ∨ l2 = f l) := by
  rw [dUpdate] at h
  obtain ⟨p, hp, heq⟩ := List.mem_map.mp h
  by_cases hk : p.1 = k
  · rw [if_pos hk] at heq
    refine ⟨p.2, ?_, Or.inr ?_⟩
    · have : p = (g, p.2) := by
        cases p
        simp_all
      rw [← this]; exact hp
    · cases p; simp_all
  · rw [if_neg hk] at heq
    subst heq
    exact ⟨l2, hp, Or.inl rfl⟩

/-- Effect of removing a selected file from the group that holds it:
the total contents stay duplicate-free, shrink, and no longer contain the
removed file. -/
theorem AGF_dUpdate_remove (x : String) :
    ∀ (gs : List (String × List String)) (k : String),
      (allGroupFiles gs).Nodup →
      (allGroupFiles (dUpdate gs k fun l => removeFirst l x)).Nodup ∧
      (∀ y ∈ allGroupFiles (dUpdate gs k fun l => removeFirst l x),
        y ∈ allGroupFiles gs) ∧
      (∀ gl, dLookup gs k = some gl → x ∈ gl →
        x ∉ allGroupFiles (dUpdate gs k fun l => removeFirst l x)) := by
  intro gs
  induction gs with
  | nil =>
      intro k _
      refine ⟨by simp [dUpdate, allGroupFiles], by simp [dUpdate, allGroupFiles], ?_⟩
      intro gl hgl
      simp [dLookup] at hgl
  | cons p rest ih =>
      intro k hnd
      rw [allGroupFiles, List.nodup_append] at hnd
      obtain ⟨hnd1, hnd2, hdisj⟩ := hnd
      obtain ⟨ih1, ih2, ih3⟩ := ih k hnd2
      by_cases hk : p.1 = k
      · have hupd : dUpdate (p :: rest) k (fun l => removeFirst l x) =
            (p.1, removeFirst p.2 x) :: dUpdate rest k (fun l => removeFirst l x) := by
          rw [dUpdate, List.map_cons, if_pos hk]
          rfl
        rw [hupd]
        refine ⟨?_, ?_, ?_⟩
        · rw [allGroupFiles, List.nodup_append]
          refine ⟨removeFirst_nodup hnd1, ih1, ?_⟩
          intro a ha hb
          exact hdisj (removeFirst_subset ha) (ih2 a hb)
        · intro y hy
          rw [allGroupFiles, List.mem_append] at hy ⊢
          rcases hy with hy | hy
          · exact Or.inl (removeFirst_subset hy)
          · exact Or.inr (ih2 y hy)
        · intro gl hgl hx
          have hgl2 : gl = p.2 := by
            rw [dLookup, List.find?_cons_of_pos _ (by simp [hk])] at hgl
            simpa using hgl.symm
          rw [hgl2] at hx
          rw [allGroupFiles, List.mem_append]
          rintro (h | h)
          · exact removeFirst_not_mem hnd1 h
          · exact hdisj hx (ih2 x h)
      · have hupd : dUpdate (p :: rest) k (fun l => removeFirst l x) =
            p :: dUpdate rest k (fun l => removeFirst l x) := by
          rw [dUpdate, List.map_cons, if_neg hk]
          rfl
        rw [hupd]
        refine ⟨?_, ?_, ?_⟩
        · rw [allGroupFiles, List.nodup_append]
          refine ⟨hnd1, ih1, ?_⟩
          intro a ha hb
          exact hdisj ha (ih2 a hb)
        · intro y hy
          rw [allGroupFiles, List.mem_append] at hy ⊢
          rcases hy with hy | hy
          · exact Or.inl hy
          · exact Or.inr (ih2 y hy)
        · intro gl hgl hx
          have hgl2 : dLookup rest k = some gl := by
            rw [dLookup, List.find?_cons_of_neg _ (by simp [hk])] at hgl
            exact hgl
          have hxa : x ∈ allGroupFiles rest :=
            mem_AGF_of_entry (dLookup_mem hgl2) hx
          rw [allGroupFiles, List.mem_append]
          rintro (h | h)
          · exact hdisj h hxa
          · exact ih3 gl hgl2 hx h


/-- Fold preservation: an invariant kept by every step over elements of
the list is kept by the whole fold. -/
theorem foldl_preserve_mem {α β : Type} (P : β → Prop) (Q : α → Prop)
    (f : β → α → β) (h : ∀ st a, Q a → P st → P (f st a)) :
    ∀ (l : List α), (∀ a ∈ l, Q a) → ∀ st, P st → P (l.foldl f st) := by
  intro l
  induction l with
  | nil => intro _ st h1; exact h1
  | cons a l ih =>
      intro hq st h1
      rw [List.foldl_cons]
      exact ih (fun b hb => hq b (List.mem_cons_of_mem a hb)) _
        (h st a (hq a (List.mem_cons_self a l)) h1)

/-- If a list has duplicate-free `g`-images and `f` determines `g` on its
elements, the `f`-images are duplicate-free as well. -/
theorem nodup_map_of_determined {α β γ : Type} (f : α → β) (g : α → γ) :
    ∀ (l : List α), (l.map g).Nodup →
      (∀ a ∈ l, ∀ b ∈ l, f a = f b → g a = g b) → (l.map f).Nodup := by
  intro l
  induction l with
  | nil => intro _ _; simp
  | cons a l ih =>
      intro hg h
      rw [List.map_cons, List.nodup_cons] at hg ⊢
      refine ⟨?_, ih hg.2 fun x hx y hy =>
        h x (List.mem_cons_of_mem a hx) y (List.mem_cons_of_mem a hy)⟩
      intro hmem
      obtain ⟨b, hb, hba⟩ := List.mem_map.mp hmem
      have hgb := h b (List.mem_cons_of_mem a hb) a (List.mem_cons_self a l) hba
      exact hg.1 (List.mem_map.mpr ⟨b, hb, hgb⟩)

/-- The invariant of the fuzzy phase used for C2: matched keys are
duplicate-free, every matched entry has a VO side satisfying `VO` and an
ES side satisfying `ES`, and every file still held by an ES group
satisfies `ES`. -/
def pairInv (VO ES : String → Prop)
    (st : List (String × String × String) × List (String × List String)) : Prop :=
  (st.1.map Prod.fst).Nodup ∧ (∀ e ∈ st.1, VO e.2.1 ∧ ES e.2.2) ∧
    ∀ p ∈ st.2, ∀ x ∈ p.2, ES x

theorem c2_fuzzyStep (VO ES : String → Prop) (gk : String) (vol : List String)
    (st : List (String × String × String) × List (String × List String))
    (hvol : ∀ v ∈ vol, VO v) (hst : pairInv VO ES st) :
    pairInv VO ES (fuzzyStep st gk vol) := by
  rw [fuzzyStep]
  cases hbg : bestGroup gk st.2 with
  | none => exact hst
  | some bg =>
      refine foldl_preserve_mem (pairInv VO ES) VO _ ?_ vol hvol st hst
      intro st2 vo_file hv hp
      dsimp only
      cases hl : dLookup st2.2 bg with
      | none => exact hp
      | some gl =>
          cases hb : bestFile vo_file gl with
          | none => exact hp
          | some esf =>
              obtain ⟨h1, h2, h3⟩ := hp
              refine ⟨dInsert_keys_nodup h1, ?_, ?_⟩
              · intro e he
                rcases dInsert_mem he with h | h
                · exact h2 e h
                · rw [h]
                  exact ⟨hv, h3 (bg, gl) (dLookup_mem hl) esf (bestFile_mem hb)⟩
              · intro p hpm x hx
                obtain ⟨g, l2⟩ := p
                have hpm2 : (g, l2) ∈ dUpdate st2.2 bg fun l => removeFirst l esf :=
                  hpm
                obtain ⟨l, hlm, hcase⟩ := dUpdate_mem hpm2
                rcases hcase with rfl | rfl
                · exact h3 (g, l2) hlm x hx
                · exact h3 (g, l) hlm x (removeFirst_subset hx)

theorem c2_fuzzyMatch (VO ES : String → Prop)
    (matched : List (String × String × String)) (rvo res : List String)
    (hm : (matched.map Prod.fst).Nodup ∧ ∀ e ∈ matched, VO e.2.1 ∧ ES e.2.2)
    (hvo : ∀ v ∈ rvo, VO v) (hes : ∀ x ∈ res, ES x) :
    ((fuzzyMatch matched rvo res).map Prod.fst).Nodup ∧
      ∀ e ∈ fuzzyMatch matched rvo res, VO e.2.1 ∧ ES e.2.2 := by
  rw [fuzzyMatch]
  have hinv : pairInv VO ES ((groupFiles rvo).foldl
      (fun st vg => fuzzyStep st vg.1 vg.2) (matched, groupFiles res)) := by
    refine foldl_preserve_mem (pairInv VO ES)
      (fun vg => ∀ v ∈ vg.2, VO v) _ ?_ (groupFiles rvo) ?_ _ ?_
    · intro st vg hq hp
      exact c2_fuzzyStep VO ES vg.1 vg.2 st hq hp
    · intro vg hvg v hv
      have hmem : v ∈ allGroupFiles (groupFiles rvo) := by
        obtain ⟨g, l⟩ := vg
        exact mem_AGF_of_entry hvg hv
      exact hvo v ((AGF_groupFiles rvo).mem_iff.mp hmem)
    · refine ⟨hm.1, hm.2, ?_⟩
      intro p hpm x hx
      have hmem : x ∈ allGroupFiles (groupFiles res) := by
        obtain ⟨g, l⟩ := p
        exact mem_AGF_of_entry hpm hx
      exact hes x ((AGF_groupFiles res).mem_iff.mp hmem)
  exact ⟨hinv.1, hinv.2.1⟩

/-- C2: for every media root, walk oracle, series filter, season filter
and search-path list, the mapping returned by the pairing engine has
duplicate-free keys — each key maps to exactly one VO path and one ES
path — and every entry carries as VO side an actually enumerated VO file
and as ES side an actually enumerated ES file (so no side is ever
missing: both sides are paths produced by the collection phase). -/
theorem c2_pairing_sides (mediaRoot : String)
    (walk : String → List (String × String)) (series : Option String)
    (season : Option Nat) (paths : List String) :
    ((search_for_vo_and_es_files mediaRoot walk series season paths).map
      Prod.fst).Nodup ∧
    ∀ e ∈ search_for_vo_and_es_files mediaRoot walk series season paths,
      e.2.1 ∈ (collectFiles walk series season
        (paths.filter fun p => is_path_allowed mediaRoot p)).1 ∧
      e.2.2 ∈ (collectFiles walk series season
        (paths.filter fun p => is_path_allowed mediaRoot p)).2 := by
  by_cases h0 : paths = []
  · rw [search_for_vo_and_es_files, if_pos h0]
    exact ⟨List.nodup_nil, by intro e he; simp at he⟩
  · by_cases hv : paths.filter (fun p => is_path_allowed mediaRoot p) = []
    · rw [search_for_vo_and_es_files, if_neg h0, hv]
      simp
    · have hres := c2_fuzzyMatch
        (· ∈ (collectFiles walk series season
          (paths.filter fun p => is_path_allowed mediaRoot p)).1)
        (· ∈ (collectFiles walk series season
          (paths.filter fun p => is_path_allowed mediaRoot p)).2)
        (exactMatch
          (buildInfo (collectFiles walk series season
            (paths.filter fun p => is_path_allowed mediaRoot p)).1)
          (buildInfo (collectFiles walk series season
            (paths.filter fun p => is_path_allowed mediaRoot p)).2))
        ((collectFiles walk series season
          (paths.filter fun p => is_path_allowed mediaRoot p)).1.filter fun f =>
            ¬ (exactMatch
              (buildInfo (collectFiles walk series season
                (paths.filter fun p => is_path_allowed mediaRoot p)).1)
              (buildInfo (collectFiles walk series season
                (paths.filter fun p => is_path_allowed mediaRoot p)).2)).any
              fun kv => f = kv.2.1)
        ((collectFiles walk series season
          (paths.filter fun p => is_path_allowed mediaRoot p)).2.filter fun f =>
            ¬ (exactMatch
              (buildInfo (collectFiles walk series season
                (paths.filter fun p => is_path_allowed mediaRoot p)).1)
              (buildInfo (collectFiles walk series season
                (paths.filter fun p => is_path_allowed mediaRoot p)).2)).any
              fun kv => f = kv.2.2)
        ⟨(exactMatch_inv _ _).1, fun e he =>
          ⟨(buildInfo_mem _ _ ((exactMatch_inv _ _).2 e he).1).1,
           (buildInfo_mem _ _ ((exactMatch_inv _ _).2 e he).2).1⟩⟩
        (fun v hv2 => List.mem_of_mem_filter hv2)
        (fun x hx2 => List.mem_of_mem_filter hx2)
      rw [search_for_vo_and_es_files, if_neg h0, if_neg hv]
      exact hres

/-- ES sides appended or overwritten by a dictionary assignment: the new
side multiset stays duplicate-free when the inserted side is fresh, and
every resulting side is an old side or the inserted one. -/
theorem dInsert_sides :
    ∀ (m : List (String × String × String)) (k : String) (v : String × String),
      ((m.map fun e => e.2.2).Nodup) → v.2 ∉ (m.map fun e => e.2.2) →
      (((dInsert m k v).map fun e => e.2.2).Nodup ∧
        ∀ y ∈ ((dInsert m k v).map fun e => e.2.2),
          y ∈ (m.map fun e => e.2.2) ∨ y = v.2) := by
  intro m
  induction m with
  | nil =>
      intro k v _ _
      refine ⟨by simp [dInsert], ?_⟩
      intro y hy
      simp [dInsert] at hy
      exact Or.inr hy
  | cons p rest ih =>
      obtain ⟨k0, v0⟩ := p
      intro k v hnd hnm
      rw [List.map_cons, List.nodup_cons] at hnd
      rw [List.map_cons, List.mem_cons] at hnm
      push_neg at hnm
      rw [dInsert]
      by_cases hk : k0 = k
      · rw [if_pos hk, List.map_cons]
        refine ⟨List.nodup_cons.mpr ⟨hnm.2, hnd.2⟩, ?_⟩
        intro y hy
        rcases List.mem_cons.mp hy with h | h
        · exact Or.inr h
        · exact Or.inl (List.mem_cons_of_mem _ h)
      · rw [if_neg hk, List.map_cons]
        obtain ⟨ih1, ih2⟩ := ih k v hnd.2 hnm.2
        refine ⟨List.nodup_cons.mpr ⟨?_, ih1⟩, ?_⟩
        · intro hmem
          rcases ih2 _ hmem with h | h
          · exact hnd.1 h
          · exact hnm.1 h.symm
        · intro y hy
          rcases List.mem_cons.mp hy with h | h
          · exact Or.inl (by rw [h]; exact List.mem_cons_self _ _)
          · rcases ih2 y h with h2 | h2
            · exact Or.inl (List.mem_cons_of_mem _ h2)
            · exact Or.inr h2

/-- ES sides of the exact-match phase are duplicate-free: each matched ES
file determines its episode key, and the keys are duplicate-free. -/
theorem exactMatch_sides_nodup (files1 files2 : List String) :
    ((exactMatch (buildInfo files1) (buildInfo files2)).map
      fun e => e.2.2).Nodup := by
  refine nodup_map_of_determined (fun e => e.2.2) Prod.fst _
    (exactMatch_inv _ _).1 ?_
  intro a ha b hb hab
  have hab2 : a.2.2 = b.2.2 := hab
  have ha2 := ((exactMatch_inv (buildInfo files1) (buildInfo files2)).2 a ha).2
  have hb2 := ((exactMatch_inv (buildInfo files1) (buildInfo files2)).2 b hb).2
  obtain ⟨-, ia, hia, hka⟩ := buildInfo_mem files2 _ ha2
  obtain ⟨-, ib, hib, hkb⟩ := buildInfo_mem files2 _ hb2
  have hia2 : extract_episode_info a.2.2 = some ia := hia
  have hib2 : extract_episode_info b.2.2 = some ib := hib
  have hka2 : a.1 = episodeKeyStr ia.season ia.episode := hka
  have hkb2 : b.1 = episodeKeyStr ib.season ib.episode := hkb
  rw [hab2, hib2] at hia2
  injection hia2 with hinfo
  show a.1 = b.1
  rw [hka2, hkb2, hinfo]

/-- Invariant of the fuzzy phase used for C8: matched ES sides are
duplicate-free, the pool of still-grouped ES files is duplicate-free, and
the pool is disjoint from the matched sides. -/
def esFresh (st : List (String × String × String) × List (String × List String)) :
    Prop :=
  ((st.1.map fun e => e.2.2).Nodup) ∧ (allGroupFiles st.2).Nodup ∧
    ∀ y ∈ allGroupFiles st.2, y ∉ (st.1.map fun e => e.2.2)

theorem c8_fuzzyStep (gk : String) (vol : List String)
    (st : List (String × String × String) × List (String × List String))
    (hst : esFresh st) : esFresh (fuzzyStep st gk vol) := by
  rw [fuzzyStep]
  cases hbg : bestGroup gk st.2 with
  | none => exact hst
  | some bg =>
      refine foldl_preserve_mem esFresh (fun _ => True) _ ?_ vol
        (fun _ _ => trivial) st hst
      intro st2 vo_file _ hp
      dsimp only
      cases hl : dLookup st2.2 bg with
      | none => exact hp
      | some gl =>
          cases hb : bestFile vo_file gl with
          | none => exact hp
          | some esf =>
              obtain ⟨h1, h2, h3⟩ := hp
              have hmem : esf ∈ gl := bestFile_mem hb
              have hAGF : esf ∈ allGroupFiles st2.2 :=
                mem_AGF_of_entry (dLookup_mem hl) hmem
              obtain ⟨hs1, hs2⟩ :=
                dInsert_sides st2.1 ⟨(pySplitext (pyBasename vo_file)).1.data⟩
                  (vo_file, esf) h1 (h3 esf hAGF)
              obtain ⟨hr1, hr2, hr3⟩ := AGF_dUpdate_remove esf st2.2 bg h2
              refine ⟨hs1, hr1, ?_⟩
              intro y hy hymem
              have hyo : y ∈ allGroupFiles st2.2 := hr2 y hy
              rcases hs2 y hymem with h | h
              · exact h3 y hyo h
              · rw [h] at hy
                exact hr3 gl hl hmem hy

theorem c8_fuzzyMatch (matched : List (String × String × String))
    (rvo res : List String)
    (h1 : (matched.map fun e => e.2.2).Nodup) (h2 : res.Nodup)
    (h3 : ∀ y ∈ res, y ∉ (matched.map fun e => e.2.2)) :
    ((fuzzyMatch matched rvo res).map fun e => e.2.2).Nodup := by
  rw [fuzzyMatch]
  have hinv : esFresh ((groupFiles rvo).foldl
      (fun st vg => fuzzyStep st vg.1 vg.2) (matched, groupFiles res)) := by
    refine foldl_preserve_mem esFresh (fun _ => True) _ ?_ (groupFiles rvo)
      (fun _ _ => trivial) _ ?_
    · intro st vg _ hp
      exact c8_fuzzyStep vg.1 vg.2 st hp
    · refine ⟨h1, ((AGF_groupFiles res).nodup_iff).mpr h2, ?_⟩
      intro y hy
      exact h3 y ((AGF_groupFiles res).mem_iff.mp hy)
  exact hinv.1

set_option maxHeartbeats 1600000 in
/-- C8 counterexample: when the supplied search roots overlap (`/m` and
`/m/s`), the single ES file under `/m/s` is enumerated twice, and the
fuzzy phase matches the two copies to two distinct VO files: the returned
mapping holds two distinct entries with the same ES side, so an ES file
is reused for a different VO file in the same run. -/
theorem c8_es_reuse_counterexample :
    search_for_vo_and_es_files "/m" walkC8 none none ["/m", "/m/s"] =
      [("abcd1", "/m/abcd1.mkv", "/m/s/abcd.es.mkv"),
       ("abcd2", "/m/abcd2.mkv", "/m/s/abcd.es.mkv")] ∧
    ¬ ((search_for_vo_and_es_files "/m" walkC8 none none
        ["/m", "/m/s"]).map fun e => e.2.2).Nodup := by
  exact ⟨by decide, by decide⟩

/-- C8 amended: whenever the collection phase enumerates each ES file
once (duplicate-free ES list — in particular whenever the surviving
search roots do not overlap), no ES path appears as the ES side of two
distinct entries of the returned mapping: exact matching pairs distinct
keys with distinct ES files, and the fuzzy phase removes each selected
ES file from its group so it is never selected again. -/
theorem c8_es_unique_amended (mediaRoot : String)
    (walk : String → List (String × String)) (series : Option String)
    (season : Option Nat) (paths : List String)
    (h : (collectFiles walk series season
      (paths.filter fun p => is_path_allowed mediaRoot p)).2.Nodup) :
    ((search_for_vo_and_es_files mediaRoot walk series season paths).map
      fun e => e.2.2).Nodup := by
  by_cases h0 : paths = []
  · rw [search_for_vo_and_es_files, if_pos h0]
    exact List.nodup_nil
  · by_cases hv : paths.filter (fun p => is_path_allowed mediaRoot p) = []
    · rw [search_for_vo_and_es_files, if_neg h0, hv]
      simp
    · have hfree : ∀ y ∈ (collectFiles walk series season
          (paths.filter fun p => is_path_allowed mediaRoot p)).2.filter
            (fun f => ¬ (exactMatch
              (buildInfo (collectFiles walk series season
                (paths.filter fun p => is_path_allowed mediaRoot p)).1)
              (buildInfo (collectFiles walk series season
                (paths.filter fun p => is_path_allowed mediaRoot p)).2)).any
              fun kv => f = kv.2.2),
          y ∉ ((exactMatch
            (buildInfo (collectFiles walk series season
              (paths.filter fun p => is_path_allowed mediaRoot p)).1)
            (buildInfo (collectFiles walk series season
              (paths.filter fun p => is_path_allowed mediaRoot p)).2)).map
            fun e => e.2.2) := by
        intro y hy hmem
        have hp := List.of_mem_filter hy
        rw [decide_eq_true_eq] at hp
        obtain ⟨e, he, hee⟩ := List.mem_map.mp hmem
        exact hp (List.any_eq_true.mpr ⟨e, he, decide_eq_true hee.symm⟩)
      have hres := c8_fuzzyMatch
        (exactMatch
          (buildInfo (collectFiles walk series season
            (paths.filter fun p => is_path_allowed mediaRoot p)).1)
          (buildInfo (collectFiles walk series season
            (paths.filter fun p => is_path_allowed mediaRoot p)).2))
        ((collectFiles walk series season
          (paths.filter fun p => is_path_allowed mediaRoot p)).1.filter fun f =>
            ¬ (exactMatch
              (buildInfo (collectFiles walk series season
                (paths.filter fun p => is_path_allowed mediaRoot p)).1)
              (buildInfo (collectFiles walk series season
                (paths.filter fun p => is_path_allowed mediaRoot p)).2)).any
              fun kv => f = kv.2.1)
        ((collectFiles walk series season
          (paths.filter fun p => is_path_allowed mediaRoot p)).2.filter fun f =>
            ¬ (exactMatch
              (buildInfo (collectFiles walk series season
                (paths.filter fun p => is_path_allowed mediaRoot p)).1)
              (buildInfo (collectFiles walk series season
                (paths.filter fun p => is_path_allowed mediaRoot p)).2)).any
              fun kv => f = kv.2.2)
        (exactMatch_sides_nodup _ _) (h.filter _) hfree
      rw [search_for_vo_and_es_files, if_neg h0, if_neg hv]
      exact hres

set_option maxHeartbeats 1600000 in
/-- Witness for the amended C8: with the single root `/m` the collected
ES list is duplicate-free and the returned mapping has duplicate-free ES
sides. -/
theorem c8_es_unique_amended_witness :
    (collectFiles walkC7 none none
      (["/m"].filter fun p => is_path_allowed "/m" p)).2.Nodup ∧
    ((search_for_vo_and_es_files "/m" walkC7 none none ["/m"]).map
      fun e => e.2.2).Nodup :=
  ⟨by decide, c8_es_unique_amended "/m" walkC7 none none ["/m"] (by decide)⟩

end TVMP
